import Mathlib

/-!
Verification of the ActionAgent transcript-to-work-item pipeline.

Shallow embedding of the TypeScript sources:
  * `src/services/openaiService.ts` — chunking, response validation, dedup
  * `src/utils/errorHandling.ts`    — retry with exponential backoff
  * `src/services/devopsService.ts` — batched work-item creation, patch documents
  * `src/services/graphService.ts`  — VTT caption normalisation
  * `src/services/identityService.ts` — batch identity resolution

Strings are modelled as Lean `String` where only equality/length matter and as
`List Char` where the claims require character-level reasoning (chunker, VTT).
JavaScript machine details that matter to the claims are modelled explicitly:
member access on `null` throws; `split(" ")` splits on single spaces only;
`trim`/`\s` cover ASCII whitespace.
-/

namespace ActionAgent

/-- ASCII whitespace, as matched by JavaScript `\s`, `trim()` and the chunker's
sentence-boundary regex on the inputs in scope. -/
def isWsChar (c : Char) : Bool :=
  c = ' ' || c = '\t' || c = '\n' || c = '\r' || c = '\x0b' || c = '\x0c'

/-- JavaScript `String.prototype.trim` on a character list: strip leading and
trailing whitespace. -/
def trimL (l : List Char) : List Char :=
  ((l.dropWhile isWsChar).reverse.dropWhile isWsChar).reverse

/-- JavaScript `String.prototype.toLowerCase` (ASCII range, which is all the
synonym tables compare against). -/
def jsToLower (s : String) : String := (s.toList.map Char.toLower).asString

/-- JavaScript `String.prototype.includes`: `pat` occurs as a contiguous
substring of `l`. -/
def containsSub (l pat : List Char) : Bool :=
  match l with
  | [] => pat.isPrefixOf []
  | _ :: rest => pat.isPrefixOf l || containsSub rest pat

/-! ## Response Validator/Normalizer (`openaiService.ts`)

`validateWorkItemType` and `validatePriority` (lines 342–374): the input is the
raw `type`/`priority` field, which per the TypeScript signature is a string,
possibly absent (`undefined`, modelled as `none`).  `type?.toLowerCase()` maps
`undefined` to `undefined`, which compares unequal to every string literal. -/

inductive WorkItemType where
  | task | bug | userStory
deriving DecidableEq, Repr

inductive PriorityLevel where
  | high | medium | low
deriving DecidableEq, Repr

/-- `validateWorkItemType` from `openaiService.ts` lines 342–355. -/
def validateWorkItemType (type? : Option String) : WorkItemType :=
  let normalized := type?.map jsToLower
  if normalized = some "bug" || normalized = some "defect" || normalized = some "fix" then
    .bug
  else if normalized = some "user story" || normalized = some "story"
      || normalized = some "feature" then
    .userStory
  else
    .task

/-- `validatePriority` from `openaiService.ts` lines 360–374. -/
def validatePriority (priority? : Option String) : PriorityLevel :=
  let normalized := priority?.map jsToLower
  if normalized = some "high" || normalized = some "critical"
      || normalized = some "urgent" || normalized = some "1" then
    .high
  else if normalized = some "low" || normalized = some "minor" || normalized = some "3" then
    .low
  else
    .medium

/-! ## JSON values and JavaScript expression semantics

`parseAndValidateResponse` receives the result of `JSON.parse` and probes it
with `Array.isArray` and property reads.  Property reads on `null` throw a
`TypeError`; on other primitives they yield `undefined`. -/

inductive Json where
  | jnull
  | jbool (b : Bool)
  | jnum (n : Int)
  | jstr (s : String)
  | jarr (elems : List Json)
  | jobj (fields : List (String × Json))

/-- A JavaScript expression value: `undefined` or a JSON value. -/
inductive JsVal where
  | undef
  | val (j : Json)

/-- JavaScript truthiness of a JSON value. -/
def Json.truthy : Json → Bool
  | .jnull => false
  | .jbool b => b
  | .jnum n => n != 0
  | .jstr s => s != ""
  | .jarr _ => true
  | .jobj _ => true

def JsVal.truthy : JsVal → Bool
  | .undef => false
  | .val j => j.truthy

def Json.isArrayV : Json → Bool
  | .jarr _ => true
  | _ => false

def JsVal.isArrayV : JsVal → Bool
  | .undef => false
  | .val j => j.isArrayV

/-- Property read `o.k` on a value already known not to be `null` (reads on
`null` throw and are modelled separately where they can occur).  Objects yield
the field value or `undefined`; primitives and arrays yield `undefined` for
the field names used by the validator. -/
def Json.fieldOf (j : Json) (k : String) : JsVal :=
  match j with
  | .jobj fields =>
    (match fields.lookup k with
     | some v => .val v
     | none => .undef)
  | _ => .undef

def JsVal.arrayElems : JsVal → List Json
  | .val (.jarr elems) => elems
  | _ => []

def jsValToOption : JsVal → Option Json
  | .undef => none
  | .val j => some j

/-! ## Validated action items (`models/actionItem.ts`, `openaiService.ts`) -/

structure ActionItem where
  title : String
  assignedTo : String
  type : WorkItemType
  priority : PriorityLevel
  description : Option String
  deadline : Option String
deriving DecidableEq, Repr

structure ActionItemsResponse where
  actionItems : List ActionItem
  summary : Option Json

structure CorrelationContext where
  correlationId : String
  operationName : String
deriving DecidableEq, Repr

/-- `ActionAgentError` from `errorHandling.ts` lines 54–85 (the fields the
claims observe). -/
structure ActionAgentError where
  message : String
  correlationId : String
  operationName : String
  isRetryable : Bool
  statusCode : Option Nat
deriving DecidableEq, Repr

def mkActionAgentError (message : String) (ctx : CorrelationContext)
    (retryable : Bool) (statusCode : Option Nat) : ActionAgentError :=
  { message := message, correlationId := ctx.correlationId,
    operationName := ctx.operationName, isRetryable := retryable,
    statusCode := statusCode }

/-- Replace every maximal run of characters satisfying `p` with a single
space: JavaScript `replace(/P+/g, " ")` for a character class `P`.  `inRun`
records whether the previous character belonged to the current run. -/
def replaceRunsGo (p : Char → Bool) (inRun : Bool) : List Char → List Char
  | [] => []
  | c :: rest =>
    if p c then
      if inRun then replaceRunsGo p true rest
      else ' ' :: replaceRunsGo p true rest
    else c :: replaceRunsGo p false rest

def replaceRuns (p : Char → Bool) (l : List Char) : List Char :=
  replaceRunsGo p false l

def isNewlineChar (c : Char) : Bool := c = '\r' || c = '\n'

/-- `sanitizeTitle` (openaiService.ts lines 331–337): trim, cut to 255
characters, newline runs to a space, collapse whitespace runs. -/
def sanitizeTitle (title : String) : String :=
  (replaceRuns isWsChar (replaceRuns isNewlineChar ((trimL title.toList).take 255))).asString

/-- `item.assignedTo || "Unassigned"`-style read: a truthy string passes
through, anything falsy or absent falls to the default.  (Non-string field
values are outside the TypeScript contract of `ActionItem`.) -/
def jsStringOr (v : JsVal) (dflt : String) : String :=
  match v with
  | .val (.jstr s) => if s = "" then dflt else s
  | _ => dflt

/-- `item.deadline || undefined`. -/
def jsStringOpt : JsVal → Option String
  | .val (.jstr s) => if s = "" then none else some s
  | _ => none

/-- A string-typed field value, `undefined` when absent or not a string. -/
def jsFieldString : JsVal → Option String
  | .val (.jstr s) => some s
  | _ => none

/-- The filter `item && typeof item.title === "string" &&
item.title.trim().length > 0`. -/
def itemPasses (item : Json) : Bool :=
  item.truthy &&
    (match (item.fieldOf "title") with
     | .val (.jstr s) => (trimL s.toList).length > 0
     | _ => false)

def rawTitle (item : Json) : String :=
  match item.fieldOf "title" with
  | .val (.jstr s) => s
  | _ => ""

/-- The `.filter(...).map(...)` sanitisation of `parseAndValidateResponse`
(openaiService.ts lines 298–312). -/
def validateItems (actionItems : List Json) : List ActionItem :=
  (actionItems.filter itemPasses).map (fun item =>
    { title := sanitizeTitle (rawTitle item)
      assignedTo := jsStringOr (item.fieldOf "assignedTo") "Unassigned"
      type := validateWorkItemType (jsFieldString (item.fieldOf "type"))
      priority := validatePriority (jsFieldString (item.fieldOf "priority"))
      description := some (jsStringOr (item.fieldOf "description") "")
      deadline := jsStringOpt (item.fieldOf "deadline") })

/-- `parseAndValidateResponse` (openaiService.ts lines 270–326).  The argument
is the outcome of `JSON.parse(content)`: `none` when parsing threw.  The whole
body runs in one `try`; the `TypeError` thrown by `parsed.actionItems` when
`parsed` is `null` is caught by the same handler and re-thrown as the same
structured parse error. -/
def parseAndValidateResponse (parsed? : Option Json) (ctx : CorrelationContext) :
    Except ActionAgentError ActionItemsResponse :=
  let parseError := mkActionAgentError "Failed to parse AI response as JSON" ctx false none
  match parsed? with
  | none => .error parseError
  | some parsed =>
    match parsed with
    | .jarr elems =>
      -- Array.isArray(parsed): direct array format, no summary
      .ok { actionItems := validateItems elems, summary := none }
    | .jnull =>
      -- parsed.actionItems on null: TypeError, caught and re-thrown
      .error parseError
    | _ =>
      let ai := parsed.fieldOf "actionItems"
      if ai.truthy && ai.isArrayV then
        .ok { actionItems := validateItems ai.arrayElems,
              summary := jsValToOption (parsed.fieldOf "summary") }
      else
        let ts := parsed.fieldOf "tasks"
        if ts.truthy && ts.isArrayV then
          .ok { actionItems := validateItems ts.arrayElems,
                summary := jsValToOption (parsed.fieldOf "summary") }
        else
          -- unexpected format: warn and return an empty item list
          .ok { actionItems := [], summary := none }

/-- The parsed value matches none of the three accepted response shapes. -/
def matchesNoAcceptedShape (j : Json) : Bool :=
  !j.isArrayV
    && !((j.fieldOf "actionItems").truthy && (j.fieldOf "actionItems").isArrayV)
    && !((j.fieldOf "tasks").truthy && (j.fieldOf "tasks").isArrayV)

/-! ## Deduplicator (`openaiService.ts` lines 379–399) -/

/-- `item.description?.length || 0`. -/
def descLen (item : ActionItem) : Nat :=
  match item.description with
  | some s => s.length
  | none => 0

def isKeyChar (c : Char) : Bool := ('a' ≤ c && c ≤ 'z') || ('0' ≤ c && c ≤ '9')

/-- The normalized dedup key:
`item.title.toLowerCase().replace(/[^a-z0-9]/g, "")`. -/
def normKey (title : String) : String :=
  ((jsToLower title).toList.filter isKeyChar).asString

/-- `Map.prototype.set` on an existing key: replace the value in place,
keeping the key's insertion position. -/
def setKey (seen : List (String × ActionItem)) (key : String) (v : ActionItem) :
    List (String × ActionItem) :=
  seen.map (fun p => if p.1 = key then (key, v) else p)

/-- One iteration of the `for` loop of `deduplicateItems`: insert under the
normalized key; on collision keep the item with the strictly longer
description. -/
def dedupStep (seen : List (String × ActionItem)) (item : ActionItem) :
    List (String × ActionItem) :=
  let key := normKey item.title
  match seen.lookup key with
  | none => seen ++ [(key, item)]
  | some existing =>
    if descLen item > descLen existing then setKey seen key item else seen

/-- `deduplicateItems` (openaiService.ts lines 379–399): the insertion-ordered
`Map` is an association list; `Array.from(seen.values())` is the second
projection. -/
def deduplicateItems (items : List ActionItem) : List ActionItem :=
  (items.foldl dedupStep []).map Prod.snd

/-- First occurrences of a key list, in order — the iteration order of `Map`
keys, and of JavaScript `Set` elements (`[...new Set(xs)]`). -/
def firstOccurrences (keys : List String) : List String :=
  keys.foldl (fun acc k => if k ∈ acc then acc else acc ++ [k]) []

/-- Concrete colliding items for the C5 witness: the titles normalize to the
same key `fixloginbug`; the second carries the longer description. -/
def itemA : ActionItem :=
  { title := "Fix login bug!", assignedTo := "Unassigned", type := .bug,
    priority := .high, description := some "short", deadline := none }

def itemB : ActionItem :=
  { title := "fix login bug", assignedTo := "Sam", type := .bug,
    priority := .high, description := some "a much longer description", deadline := none }

/-- Loop invariant of `deduplicateItems`: every map entry is keyed by its
item's normalized title and holds an already-processed item whose description
length is maximal within its key group; every processed item's key is
present; keys are pairwise distinct. -/
def DedupInv (processed : List ActionItem) (seen : List (String × ActionItem)) : Prop :=
  (∀ p ∈ seen, p.1 = normKey p.2.title ∧ p.2 ∈ processed ∧
    ∀ y ∈ processed, normKey y.title = p.1 → descLen y ≤ descLen p.2) ∧
  (∀ y ∈ processed, normKey y.title ∈ seen.map Prod.fst) ∧
  (seen.map Prod.fst).Nodup

/-! ## Retry wrapper (`errorHandling.ts` lines 88–215) -/

structure RetryConfig where
  maxAttempts : Nat
  baseDelayMs : Nat
  maxDelayMs : Nat
  jitterFactor : ℚ
deriving DecidableEq, Repr

/-- A plain JavaScript `Error` (only its message is observed). -/
structure JsErrorObj where
  message : String
deriving DecidableEq, Repr

/-- An error reaching the retry wrapper: either the project's
`ActionAgentError` or a plain `Error`. -/
inductive JSError where
  | agentError (e : ActionAgentError)
  | plainError (e : JsErrorObj)
deriving DecidableEq, Repr

def JSError.message : JSError → String
  | .agentError e => e.message
  | .plainError e => e.message

def retryableStatusCodes : List Nat := [408, 429, 500, 502, 503, 504]

def isColonOrWs (c : Char) : Bool := c = ':' || isWsChar c

/-- One anchored attempt of the regex `/status[:\s]+(\d{3})/` on the
(lower-cased) message: literal `status`, one or more colon/whitespace
characters, then three digits captured. -/
def statusAt (l : List Char) : Option Nat :=
  if "status".toList.isPrefixOf l then
    let r := l.drop 6
    let run := r.takeWhile isColonOrWs
    if run.length > 0 then
      match r.drop run.length with
      | a :: b :: c :: _ =>
        if a.isDigit && b.isDigit && c.isDigit then
          some ((a.toNat - 48) * 100 + (b.toNat - 48) * 10 + (c.toNat - 48))
        else none
      | _ => none
    else none
  else none

/-- Leftmost match of the status regex. -/
def statusScan : List Char → Option Nat
  | [] => none
  | l@(_ :: rest) =>
    match statusAt l with
    | some n => some n
    | none => statusScan rest

/-- `isRetryableError` (errorHandling.ts lines 127–160). -/
def isRetryableError : JSError → Bool
  | .agentError e => e.isRetryable
  | .plainError e =>
    let message := (jsToLower e.message).toList
    if containsSub message "timeout".toList
        || containsSub message "econnreset".toList
        || containsSub message "econnrefused".toList
        || containsSub message "rate limit".toList
        || containsSub message "too many requests".toList
        || containsSub message "service unavailable".toList
        || containsSub message "gateway timeout".toList then
      true
    else
      match statusScan message with
      | some status => retryableStatusCodes.contains status
      | none => false

/-- `calculateBackoffDelay` (errorHandling.ts lines 107–115).  `Math.random()`
is abstracted as `rand ∈ [0,1)`. -/
def calculateBackoffDelay (attempt : Nat) (cfg : RetryConfig) (rand : ℚ) : ℤ :=
  let exponentialDelay : ℚ := (cfg.baseDelayMs : ℚ) * 2 ^ (attempt - 1)
  let cappedDelay : ℚ := min exponentialDelay (cfg.maxDelayMs : ℚ)
  let jitter : ℚ := cappedDelay * cfg.jitterFactor * (rand - 1 / 2)
  ⌊cappedDelay + jitter⌋

/-- `lastError?.message || "Operation failed after retries"`. -/
def terminalMessage (lastError : Option JSError) : String :=
  match lastError with
  | some e => if e.message = "" then "Operation failed after retries" else e.message
  | none => "Operation failed after retries"

/-- Observable outcome of one `withRetry` run: the returned value or thrown
error, how many times `operation` was invoked, and the backoff delays slept
between attempts. -/
structure RetryTrace (α : Type) where
  outcome : Except JSError α
  attemptsUsed : Nat
  delays : List ℤ

/-- The `for` loop of `withRetry` (errorHandling.ts lines 178–208) plus the
terminal `throw` (lines 210–215).  `fuel` counts the attempts still allowed
including the current one, so `attempt < cfg.maxAttempts` is `fuel > 1`;
`op n` is the outcome of the n-th invocation of `operation`; `rands n`
supplies `Math.random()` for the backoff after attempt `n`. -/
def retryLoop {α : Type} (cfg : RetryConfig) (ctx : CorrelationContext)
    (op : Nat → Except JSError α) (rands : Nat → ℚ) :
    Nat → Nat → Option JSError → List ℤ → RetryTrace α
  | attempt, 0, lastError, delays =>
    ⟨.error (.agentError (mkActionAgentError (terminalMessage lastError) ctx false none)),
      attempt - 1, delays⟩
  | attempt, fuel + 1, _, delays =>
    match op attempt with
    | .ok v => ⟨.ok v, attempt, delays⟩
    | .error e =>
      if fuel ≠ 0 && isRetryableError e then
        retryLoop cfg ctx op rands (attempt + 1) fuel (some e)
          (delays ++ [calculateBackoffDelay attempt cfg (rands attempt)])
      else
        ⟨.error (.agentError (mkActionAgentError (terminalMessage (some e)) ctx false none)),
          attempt, delays⟩

/-- `withRetry` (errorHandling.ts lines 165–215).  `enableRetries` models
`config.features.enableRetries`; with retries disabled the bare operation
outcome is returned after a single invocation. -/
def withRetry {α : Type} (enableRetries : Bool) (cfg : RetryConfig)
    (ctx : CorrelationContext) (op : Nat → Except JSError α) (rands : Nat → ℚ) :
    RetryTrace α :=
  if enableRetries then retryLoop cfg ctx op rands 1 cfg.maxAttempts none []
  else ⟨op 1, 1, []⟩

/-- The deterministic core of the backoff: base delay doubled per attempt,
capped at the maximum delay (the jitter-free part of
`calculateBackoffDelay`). -/
def cappedBackoffCore (cfg : RetryConfig) (attempt : Nat) : ℚ :=
  min ((cfg.baseDelayMs : ℚ) * 2 ^ (attempt - 1)) (cfg.maxDelayMs : ℚ)

/-! ## Identity Resolver batch variant (`identityService.ts`) -/

structure ResolvedUser where
  displayName : String
  userPrincipalName : String
  mail : Option String
  id : String
  confidence : String
deriving DecidableEq, Repr

structure ResolutionResult where
  originalName : String
  resolved : Bool
  user : Option ResolvedUser
  alternatives : List ResolvedUser
  error : Option String
deriving DecidableEq, Repr

/-- The trivially unresolved stub used for the C9 counterexample. -/
def stubResolution (n : String) : ResolutionResult :=
  { originalName := n, resolved := false, user := none, alternatives := [], error := none }

/-- `resolveMany`/`resolveUsers` batches: concurrency groups of
`BATCH_SIZE = 5`; `Promise.all` preserves order, and each batch's results are
inserted into the map in batch order. -/
def resolveUsersBatches (resolver : String → ResolutionResult) (names : List String) :
    List (String × ResolutionResult) :=
  if h : names = [] then []
  else
    (names.take 5).map (fun n => (n, resolver n))
      ++ resolveUsersBatches resolver (names.drop 5)
termination_by names.length
decreasing_by
  rw [List.length_drop]
  have : names.length ≠ 0 := fun hz => h (List.length_eq_zero.1 hz)
  omega

/-- `resolveUsers` (identityService.ts): filter out falsy names and the exact
literal `"Unassigned"`, deduplicate via `Set` (first occurrences, insertion
order), then resolve in batches of 5.  The network-bound single-name
`resolveUser` is abstracted as `resolver`; the returned insertion-ordered
`Map` is an association list. -/
def resolveUsers (names : List String) (resolver : String → ResolutionResult) :
    List (String × ResolutionResult) :=
  resolveUsersBatches resolver
    (firstOccurrences (names.filter (fun n => n ≠ "" && n ≠ "Unassigned")))

/-! ## Delivery Orchestrator batching (`devopsService.ts` lines 266–317) -/

/-- `ExtendedWorkItemResult` (devopsService.ts lines 42–45). -/
structure ExtendedWorkItemResult where
  id : Nat
  url : String
  title : String
  type : String
  assigneeResolution : Option ResolutionResult
  correlationId : String
deriving DecidableEq, Repr

/-- `MAX_CONCURRENT` (devopsService.ts line 36). -/
def MAX_CONCURRENT : Nat := 5

/-- `Promise.allSettled(batch.map(task => createWorkItem(task, …)))`: the
settled outcomes in batch order.  `create` abstracts the network-bound
`createWorkItem`, indexed by the item's position so stub backends can fail on
a chosen call. -/
def settleBatch (create : Nat → ActionItem → Except JsErrorObj ExtendedWorkItemResult) :
    Nat → List ActionItem → List (ActionItem × Except JsErrorObj ExtendedWorkItemResult)
  | _, [] => []
  | start, t :: ts => (t, create start t) :: settleBatch create (start + 1) ts

/-- The batch loop of `createWorkItems`: slice off `MAX_CONCURRENT` tasks,
settle them, push fulfilled values to `results` and rejections to `errors` in
order, then continue (the inter-batch delay does not affect the result). -/
def createWorkItemsGo (create : Nat → ActionItem → Except JsErrorObj ExtendedWorkItemResult)
    (start : Nat) (tasks : List ActionItem) :
    List ExtendedWorkItemResult × List (ActionItem × JsErrorObj) :=
  if h : tasks = [] then ([], [])
  else
    let settled := settleBatch create start (tasks.take MAX_CONCURRENT)
    let results := settled.filterMap (fun p =>
      match p.2 with
      | .ok v => some v
      | .error _ => none)
    let errors := settled.filterMap (fun p =>
      match p.2 with
      | .ok _ => none
      | .error e => some (p.1, e))
    let rest := createWorkItemsGo create (start + MAX_CONCURRENT) (tasks.drop MAX_CONCURRENT)
    (results ++ rest.1, errors ++ rest.2)
termination_by tasks.length
decreasing_by
  rw [List.length_drop]
  have : tasks.length ≠ 0 := fun hz => h (List.length_eq_zero.1 hz)
  simp only [MAX_CONCURRENT]
  omega

/-- `createWorkItems` (devopsService.ts lines 266–317) returns the successes;
the `(task, error)` pairs are collected and logged alongside. -/
def createWorkItems (create : Nat → ActionItem → Except JsErrorObj ExtendedWorkItemResult)
    (tasks : List ActionItem) : List ExtendedWorkItemResult :=
  (createWorkItemsGo create 0 tasks).1

/-- Reference behaviour: process every item in order, one at a time,
collecting the successes. -/
def sequentialResults (create : Nat → ActionItem → Except JsErrorObj ExtendedWorkItemResult) :
    Nat → List ActionItem → List ExtendedWorkItemResult
  | _, [] => []
  | start, t :: ts =>
    match create start t with
    | .ok v => v :: sequentialResults create (start + 1) ts
    | .error _ => sequentialResults create (start + 1) ts

/-- Reference behaviour: the failures, in order, as `(task, error)` pairs. -/
def sequentialErrors (create : Nat → ActionItem → Except JsErrorObj ExtendedWorkItemResult) :
    Nat → List ActionItem → List (ActionItem × JsErrorObj)
  | _, [] => []
  | start, t :: ts =>
    match create start t with
    | .ok _ => sequentialErrors create (start + 1) ts
    | .error e => (t, e) :: sequentialErrors create (start + 1) ts

/-! ## Patch document construction (`devopsService.ts` lines 139–258)

`config.azureDevOps` fields come from `optionalEnv` with `""` defaults, so an
unset field is the empty string (falsy in the `if (config...)` guards). -/

structure AdoConfig where
  project : String
  defaultWorkItemType : String
  defaultAreaPath : String
  defaultIterationPath : String
  triageUser : String
deriving DecidableEq, Repr

/-- The `priorityMap` of `config.ts` read at `priorityMap[task.priority] || 2`
for the validated `task.priority ∈ {High, Medium, Low}` (the other table keys
`Critical`/`Normal`/`Lowest` are unreachable from a validated item, and every
reachable entry is non-zero so the `|| 2` fallback never fires). -/
def adoPriority : PriorityLevel → Nat
  | .high => 1
  | .medium => 2
  | .low => 3

def PriorityLevel.text : PriorityLevel → String
  | .high => "High"
  | .medium => "Medium"
  | .low => "Low"

/-- `mapWorkItemType` (devopsService.ts lines 323–333). -/
def mapWorkItemType (cfg : AdoConfig) : WorkItemType → String
  | .bug => "Bug"
  | .userStory => "User Story"
  | .task => cfg.defaultWorkItemType

/-- JavaScript `Date` restricted to what `parseDeadline` uses: a calendar day
index (day 0 a Sunday, so `getDay` is the index mod 7) plus milliseconds
within the day. -/
structure JsDate where
  day : Int
  msOfDay : Nat
deriving DecidableEq, Repr

def JsDate.setHours (d : JsDate) (h m s ms : Nat) : JsDate :=
  { d with msOfDay := ((h * 60 + m) * 60 + s) * 1000 + ms }

def JsDate.addDays (d : JsDate) (n : Nat) : JsDate :=
  { d with day := d.day + n }

def JsDate.getDay (d : JsDate) : Nat := (d.day % 7).toNat

/-- `parseDeadline` (devopsService.ts lines 219–258).  The engine-defined
generic `new Date(deadline)` parsing is abstracted as `genericParse`
(returning `none` for an invalid date). -/
def parseDeadline (now : JsDate) (genericParse : String → Option JsDate)
    (deadline : String) : Option JsDate :=
  let lower := (jsToLower deadline).toList
  if containsSub lower "eod".toList || containsSub lower "end of day".toList
      || containsSub lower "today".toList then
    some (now.setHours 23 59 59 999)
  else if containsSub lower "tomorrow".toList then
    some ((now.addDays 1).setHours 17 0 0 0)
  else if containsSub lower "next week".toList then
    some (now.addDays 7)
  else if containsSub lower "end of sprint".toList
      || containsSub lower "sprint end".toList then
    let rem := ((5 - (now.getDay : Int) + 7) % 7).toNat
    let daysUntilFriday := if rem = 0 then 7 else rem
    some (now.addDays daysUntilFriday)
  else
    genericParse deadline

/-- `escapeHtml` (devopsService.ts lines 364–371). -/
def escapeHtml (text : String) : String :=
  ((((text.replace "&" "&amp;").replace "<" "&lt;").replace ">" "&gt;").replace
    "\"" "&quot;").replace "\x27" "&#039;"

/-- `formatDescription` (devopsService.ts lines 338–359). -/
def formatDescription (task : ActionItem) (correlationId : String) : String :=
  let d0 := "<div><strong>🤖 Generated by ActionAgent AI</strong></div>" ++ "<hr/>"
  let d1 := match task.description with
    | some s => if s = "" then "" else "<p>" ++ escapeHtml s ++ "</p>"
    | none => ""
  let d2 := "<br/><table>"
    ++ "<tr><td><strong>Priority:</strong></td><td>" ++ task.priority.text ++ "</td></tr>"
    ++ "<tr><td><strong>Original Assignee:</strong></td><td>"
    ++ escapeHtml task.assignedTo ++ "</td></tr>"
  let d3 := match task.deadline with
    | some s =>
      if s = "" then ""
      else "<tr><td><strong>Deadline:</strong></td><td>" ++ escapeHtml s ++ "</td></tr>"
    | none => ""
  let d4 := "</table>"
    ++ "<br/><p><em>This work item was automatically created from a Teams meeting transcript.</em></p>"
    ++ "<p style=\"color: #888; font-size: 10px;\">Correlation ID: " ++ correlationId ++ "</p>"
  d0 ++ d1 ++ d2 ++ d3 ++ d4

inductive PatchValue where
  | str (s : String)
  | num (n : Nat)
  | date (d : JsDate)
deriving DecidableEq, Repr

/-- A JSON-patch `add` operation (the only `op` the builder emits). -/
structure PatchOperation where
  op : String
  path : String
  value : PatchValue
deriving DecidableEq, Repr

/-- `buildPatchDocument` (devopsService.ts lines 139–214). -/
def buildPatchDocument (cfg : AdoConfig) (now : JsDate)
    (genericParse : String → Option JsDate) (task : ActionItem)
    (assigneeIdentity : String) (correlationId : String) : List PatchOperation :=
  let base : List PatchOperation :=
    [ ⟨"add", "/fields/System.Title", .str task.title⟩,
      ⟨"add", "/fields/System.Description", .str (formatDescription task correlationId)⟩,
      ⟨"add", "/fields/Microsoft.VSTS.Common.Priority", .num (adoPriority task.priority)⟩,
      ⟨"add", "/fields/System.Tags", .str "ActionAgent; AI-Generated"⟩ ]
  let withAssignee :=
    if assigneeIdentity ≠ "" && assigneeIdentity ≠ "Unassigned" then
      base ++ [⟨"add", "/fields/System.AssignedTo", .str assigneeIdentity⟩]
    else if cfg.triageUser ≠ "" then
      base ++ [⟨"add", "/fields/System.AssignedTo", .str cfg.triageUser⟩]
    else
      base
  let withArea :=
    if cfg.defaultAreaPath ≠ "" then
      withAssignee ++ [⟨"add", "/fields/System.AreaPath", .str cfg.defaultAreaPath⟩]
    else
      withAssignee
  let withIteration :=
    if cfg.defaultIterationPath ≠ "" then
      withArea ++ [⟨"add", "/fields/System.IterationPath", .str cfg.defaultIterationPath⟩]
    else
      withArea
  match task.deadline with
  | some dl =>
    if dl = "" then withIteration
    else
      match parseDeadline now genericParse dl with
      | some d =>
        withIteration ++ [⟨"add", "/fields/Microsoft.VSTS.Scheduling.TargetDate", .date d⟩]
      | none => withIteration
  | none => withIteration

/-! ## Chunker (`openaiService.ts` lines 192–232) -/

def isPunctEnd (c : Char) : Bool := c = '.' || c = '!' || c = '?'

/-- `text.split(/(?<=[.!?])\\s+/)`: the regex engine cuts at every maximal
whitespace run whose preceding character is sentence-ending punctuation,
consuming the run.  `skipping` is true while inside such a run; `cur` holds
the reversed current sentence. -/
def sentGo (skipping : Bool) (cur : List Char) : List Char → List (List Char)
  | [] => [cur.reverse]
  | c :: rest =>
    if skipping then
      if isWsChar c then sentGo true [] rest
      else sentGo false [c] rest
    else
      if isWsChar c && (match cur with | p :: _ => isPunctEnd p | [] => false) then
        cur.reverse :: sentGo true [] rest
      else sentGo false (c :: cur) rest

def sentSplit (l : List Char) : List (List Char) := sentGo false [] l

/-- `sentence.split(" ")`: split at every single space character (consecutive
spaces produce empty words; other whitespace does not split). -/
def splitOnSpace : List Char → List (List Char)
  | [] => [[]]
  | c :: rest =>
    if c = ' ' then [] :: splitOnSpace rest
    else
      match splitOnSpace rest with
      | w :: ws => (c :: w) :: ws
      | [] => [[c]]

/-- The inner word loop of `splitIntoChunks` (lines 207–215): state is
`(chunks, wordChunk)`; an overfull `wordChunk` is flushed (trimmed) before
the word and a space are appended. -/
def wordStep (maxLength : Nat) (st : List (List Char) × List Char) (word : List Char) :
    List (List Char) × List Char :=
  let st' :=
    if st.2.length + word.length > maxLength then (st.1 ++ [trimL st.2], ([] : List Char))
    else st
  (st'.1, st'.2 ++ word ++ [' '])

/-- One iteration of the sentence loop of `splitIntoChunks` (lines 199–225):
state is `(chunks, currentChunk)`. -/
def sentenceStep (maxLength : Nat) (st : List (List Char) × List Char) (s : List Char) :
    List (List Char) × List Char :=
  if st.2.length + s.length > maxLength then
    let chunks := if st.2.length > 0 then st.1 ++ [trimL st.2] else st.1
    if s.length > maxLength then
      let ws := (splitOnSpace s).foldl (wordStep maxLength) (chunks, [])
      (ws.1, if trimL ws.2 ≠ [] then ws.2 else [])
    else (chunks, s ++ [' '])
  else (st.1, st.2 ++ s ++ [' '])

/-- `splitIntoChunks` (openaiService.ts lines 192–232). -/
def splitIntoChunks (text : List Char) (maxLength : Nat) : List (List Char) :=
  let st := (sentSplit text).foldl (sentenceStep maxLength) ([], [])
  if trimL st.2 ≠ [] then st.1 ++ [trimL st.2] else st.1

/-- The words of the input as the chunker produces them: each sentence of the
sentence split further split on single spaces.  Such a word may contain
non-space whitespace (newlines, tabs). -/
def wordsOf (text : List Char) : List (List Char) :=
  ((sentSplit text).map splitOnSpace).join

/-- Maximal whitespace-free runs of the input — the claim's reading of
"word". -/
def wsTokensGo (cur : List Char) : List Char → List (List Char)
  | [] => if cur = [] then [] else [cur.reverse]
  | c :: rest =>
    if isWsChar c then
      if cur = [] then wsTokensGo [] rest
      else cur.reverse :: wsTokensGo [] rest
    else wsTokensGo (c :: cur) rest

def wsTokens (l : List Char) : List (List Char) := wsTokensGo [] l

/-- Loop invariant of the chunker folds: accumulated chunks fit within the
threshold, and the current chunk is empty or ends in a space with length at
most threshold + 1 (the trailing space appended after each piece). -/
def ChunkInv (maxLength : Nat) (st : List (List Char) × List Char) : Prop :=
  (∀ c ∈ st.1, c.length ≤ maxLength) ∧
  (st.2 = [] ∨ st.2.getLast? = some ' ') ∧
  st.2.length ≤ maxLength + 1

/-- The non-whitespace content of a string, for the reconstruction-modulo-
whitespace statement. -/
def nonWs (l : List Char) : List Char := l.filter (fun c => !isWsChar c)

/-! ## Caption Normalizer (`graphService.ts` lines 122–165) -/

/-- `vttContent.split("\n")`. -/
def splitLines : List Char → List (List Char)
  | [] => [[]]
  | c :: rest =>
    if c = '\n' then [] :: splitLines rest
    else
      match splitLines rest with
      | l :: ls => (c :: l) :: ls
      | [] => [[c]]

/-- Group 2 of the speaker regex `/<v ([^>]+)>(.+?)(?:<\/v>)?$/` per lazy
semantics: the shortest nonempty text after which an optional literal `</v>`
reaches the end of the line, so a trailing `</v>` is excluded exactly when at
least one character precedes it. -/
def vStripLazy (r : List Char) : List Char :=
  if 5 ≤ r.length && "</v>".toList.isSuffixOf r then r.take (r.length - 4) else r

/-- The code's own `text.replace(/<\/v>$/, "")` applied to the captured
group. -/
def vReplaceEnd (t : List Char) : List Char :=
  if "</v>".toList.isSuffixOf t then t.take (t.length - 4) else t

/-- One anchored attempt of the speaker regex with `l` the text after the
literal `<v `: the greedy `[^>]+` takes everything up to the first `>`
(at least one character required), and the lazy `(.+?)(?:<\/v>)?$` needs a
nonempty remainder in which `.` cannot match CR or LF. -/
def vAttempt (l : List Char) : Option (List Char × List Char) :=
  let sp := l.takeWhile (fun c => c != '>')
  match l.dropWhile (fun c => c != '>') with
  | '>' :: r =>
    if !sp.isEmpty && !r.isEmpty && !r.contains '\r' && !r.contains '\n' then
      some (sp, vStripLazy r)
    else none
  | _ => none

/-- Leftmost match of the speaker regex over the line: the engine advances
the start position past failed attempts. -/
def vMatch : List Char → Option (List Char × List Char)
  | [] => none
  | c :: rest =>
    match (if c = '<' && "v ".toList.isPrefixOf rest then vAttempt (rest.drop 2) else none) with
    | some m => some m
    | none => vMatch rest

/-- The per-line loop of `parseVttToText` (graphService.ts lines 129–162):
`currentSpeaker` threads across lines, `acc` accumulates pushed text
fragments. -/
def vttGo (currentSpeaker : List Char) (acc : List (List Char)) :
    List (List Char) → List (List Char)
  | [] => acc
  | line :: rest =>
    let trimmed := trimL line
    if trimmed.isEmpty || trimmed == "WEBVTT".toList
        || "NOTE".toList.isPrefixOf trimmed then
      vttGo currentSpeaker acc rest
    else if containsSub trimmed " --> ".toList then
      vttGo currentSpeaker acc rest
    else if !trimmed.isEmpty && trimmed.all Char.isDigit then
      vttGo currentSpeaker acc rest
    else
      match vMatch trimmed with
      | some (speaker, text0) =>
        let text := vReplaceEnd text0
        if speaker ≠ currentSpeaker then
          vttGo speaker (acc ++ ['\n' :: (speaker ++ [':'])] ++ [text]) rest
        else
          vttGo currentSpeaker (acc ++ [text]) rest
      | none =>
        if trimmed.length > 0 then vttGo currentSpeaker (acc ++ [trimmed]) rest
        else vttGo currentSpeaker acc rest

/-- `parseVttToText` (graphService.ts lines 122–165): per-line filtering and
speaker extraction, then `join(" ")`, whitespace collapse and trim. -/
def parseVttToText (vttContent : List Char) : List Char :=
  if vttContent.isEmpty then []
  else
    trimL (replaceRuns isWsChar
      (List.intercalate [' '] (vttGo [] [] (splitLines vttContent))))

/-- Whitespace-normal form: every whitespace character is a single space not
adjacent to further whitespace — the shape `replace(/\s+/g, " ")` leaves
behind. -/
def WsIsolated (l : List Char) : Prop :=
  (∀ c ∈ l, isWsChar c = true → c = ' ') ∧
  List.Chain' (fun a b => ¬(isWsChar a = true ∧ isWsChar b = true)) l

end ActionAgent

namespace ActionAgent

/-- Claim C7: the two normalizers are total into their three-value enumerations, and
realize exactly the case-insensitive synonym tables of the spec:
bug/defect/fix ↦ Bug, user story/story/feature ↦ UserStory, all else ↦ Task;
high/critical/urgent/1 ↦ High, low/minor/3 ↦ Low, all else ↦ Medium.
Absent (`undefined`) inputs fall to the defaults. -/
theorem C7_normalization_totality :
    (∀ t? : Option String,
      (validateWorkItemType t? = .bug ↔
        ∃ s, t? = some s ∧ jsToLower s ∈ (["bug", "defect", "fix"] : List String)) ∧
      (validateWorkItemType t? = .userStory ↔
        ∃ s, t? = some s ∧ jsToLower s ∈ (["user story", "story", "feature"] : List String)) ∧
      (validateWorkItemType t? = .task ↔
        ¬ (∃ s, t? = some s ∧
            jsToLower s ∈ (["bug", "defect", "fix",
                          "user story", "story", "feature"] : List String)))) ∧
    (∀ p? : Option String,
      (validatePriority p? = .high ↔
        ∃ s, p? = some s ∧ jsToLower s ∈ (["high", "critical", "urgent", "1"] : List String)) ∧
      (validatePriority p? = .low ↔
        ∃ s, p? = some s ∧ jsToLower s ∈ (["low", "minor", "3"] : List String)) ∧
      (validatePriority p? = .medium ↔
        ¬ (∃ s, p? = some s ∧
            jsToLower s ∈ (["high", "critical", "urgent", "1",
                          "low", "minor", "3"] : List String)))) := by
  constructor
  · intro t?
    match t? with
    | none =>
      refine ⟨?_, ?_, ?_⟩ <;> simp [validateWorkItemType]
    | some s =>
      simp only [validateWorkItemType, Option.map_some]
      by_cases hb : jsToLower s = "bug" <;>
      by_cases hd : jsToLower s = "defect" <;>
      by_cases hf : jsToLower s = "fix" <;>
      by_cases hu : jsToLower s = "user story" <;>
      by_cases hs : jsToLower s = "story" <;>
      by_cases hfe : jsToLower s = "feature" <;>
        simp_all
  · intro p?
    match p? with
    | none =>
      refine ⟨?_, ?_, ?_⟩ <;> simp [validatePriority]
    | some s =>
      simp only [validatePriority, Option.map_some]
      by_cases h1 : jsToLower s = "high" <;>
      by_cases h2 : jsToLower s = "critical" <;>
      by_cases h3 : jsToLower s = "urgent" <;>
      by_cases h4 : jsToLower s = "1" <;>
      by_cases h5 : jsToLower s = "low" <;>
      by_cases h6 : jsToLower s = "minor" <;>
      by_cases h7 : jsToLower s = "3" <;>
        simp_all

/-- Trivial synonym-table instances of `C7_normalization_totality` at concrete
inputs, obtained by applying the characterisation. -/
theorem C7_normalization_totality_witness :
    validateWorkItemType (some "DEFECT") = .bug ∧
    validatePriority none = .medium := by
  constructor
  · exact ((C7_normalization_totality.1 (some "DEFECT")).1).2 ⟨"DEFECT", rfl, by decide⟩
  · exact ((C7_normalization_totality.2 none).2.2).2 (by simp)

/-- Claim C1 counterexample: the response string `"null"` parses as JSON (to
the value `null`) and matches none of the three accepted shapes, yet the
validator raises the structured parse error — the member access
`parsed.actionItems` throws a `TypeError` on `null` inside the `try` block —
instead of returning an `ExtractionResult` with an empty item list. -/
theorem C1_null_counterexample :
    matchesNoAcceptedShape Json.jnull = true ∧
    parseAndValidateResponse (some Json.jnull) ⟨"cid-null", "AI.ExtractActionItems"⟩
      = .error (mkActionAgentError "Failed to parse AI response as JSON"
          ⟨"cid-null", "AI.ExtractActionItems"⟩ false none) :=
  ⟨rfl, rfl⟩

/-- Claim C1 (amended): a JSON parse failure raises the structured error
carrying the correlation id; a parse success that matches none of the three
accepted shapes (bare array, `{actionItems}`, `{tasks}`) yields an
`ExtractionResult` with an empty item list — except for the JSON value
`null`, on which the member-access probe inside the `try` block throws and
the validator raises the same structured parse error instead. -/
theorem C1_parse_failure_and_shape_fallback (ctx : CorrelationContext) :
    (∃ e, parseAndValidateResponse none ctx = .error e ∧
      e.correlationId = ctx.correlationId) ∧
    (∀ j : Json, matchesNoAcceptedShape j = true → j ≠ .jnull →
      parseAndValidateResponse (some j) ctx = .ok ⟨[], none⟩) := by
  constructor
  · exact ⟨_, rfl, rfl⟩
  · intro j h hn
    simp only [matchesNoAcceptedShape, Bool.and_eq_true, Bool.not_eq_true'] at h
    obtain ⟨⟨ha, hai⟩, hts⟩ := h
    cases j with
    | jnull => exact absurd rfl hn
    | jarr elems => simp [Json.isArrayV] at ha
    | jbool b => simp [parseAndValidateResponse, Json.fieldOf, JsVal.truthy] at hai hts ⊢
    | jnum n => simp [parseAndValidateResponse, Json.fieldOf, JsVal.truthy] at hai hts ⊢
    | jstr s => simp [parseAndValidateResponse, Json.fieldOf, JsVal.truthy] at hai hts ⊢
    | jobj fields =>
      simp only [parseAndValidateResponse]
      rw [hai, hts]
      rfl

/-- Instance of the amended C1 at a concrete unrecognized shape (`true` is
valid JSON that is neither an array nor an object with item arrays). -/
theorem C1_parse_failure_and_shape_fallback_witness :
    parseAndValidateResponse (some (Json.jbool true)) ⟨"cid-b", "AI.ExtractActionItems"⟩
      = .ok ⟨[], none⟩ :=
  (C1_parse_failure_and_shape_fallback ⟨"cid-b", "AI.ExtractActionItems"⟩).2
    (Json.jbool true) rfl (fun h => Json.noConfusion h)

/-- Claim C6: the three accepted encodings of one and the same list of item
records — a bare JSON array, an object with an `actionItems` array, and an
object with a `tasks` array — all produce the same normalized `ActionItem`
list. -/
theorem C6_validator_round_trip (elems : List Json) (ctx : CorrelationContext) :
    (parseAndValidateResponse (some (.jarr elems)) ctx).map ActionItemsResponse.actionItems
        = .ok (validateItems elems) ∧
    (parseAndValidateResponse (some (.jobj [("actionItems", .jarr elems)])) ctx).map
        ActionItemsResponse.actionItems = .ok (validateItems elems) ∧
    (parseAndValidateResponse (some (.jobj [("tasks", .jarr elems)])) ctx).map
        ActionItemsResponse.actionItems = .ok (validateItems elems) :=
  ⟨rfl, rfl, rfl⟩

/-! ### Association-list and first-occurrence helper lemmas -/

theorem lookup_eq_none_iff {β : Type} (k : String) (l : List (String × β)) :
    l.lookup k = none ↔ k ∉ l.map Prod.fst := by
  induction l with
  | nil => simp [List.lookup]
  | cons p t ih =>
    obtain ⟨k', v⟩ := p
    by_cases h : k = k'
    · subst h
      simp [List.lookup]
    · have hbeq : (k == k') = false := beq_eq_false_iff_ne.2 h
      simp only [List.lookup, hbeq, List.map_cons, List.mem_cons]
      rw [ih]
      simp [h]

theorem lookup_mem {β : Type} {k : String} {v : β} {l : List (String × β)}
    (h : l.lookup k = some v) : (k, v) ∈ l := by
  induction l with
  | nil => simp [List.lookup] at h
  | cons p t ih =>
    obtain ⟨k', v'⟩ := p
    by_cases hk : k = k'
    · subst hk
      simp only [List.lookup, beq_self_eq_true] at h
      have : v' = v := by simpa using h
      rw [this]
      exact List.mem_cons_self _ _
    · have hbeq : (k == k') = false := beq_eq_false_iff_ne.2 hk
      simp only [List.lookup, hbeq] at h
      exact List.mem_cons_of_mem _ (ih h)

theorem setKey_map_fst (seen : List (String × ActionItem)) (key : String) (v : ActionItem) :
    (setKey seen key v).map Prod.fst = seen.map Prod.fst := by
  induction seen with
  | nil => rfl
  | cons p t ih =>
    simp only [setKey, List.map_cons] at ih ⊢
    by_cases h : p.1 = key
    · simp [h, ih]
    · simp [h, ih]

theorem mem_setKey {seen : List (String × ActionItem)} {key : String} {v : ActionItem}
    {p : String × ActionItem} :
    p ∈ setKey seen key v ↔ ∃ q ∈ seen, p = if q.1 = key then (key, v) else q := by
  simp only [setKey, List.mem_map]
  constructor
  · rintro ⟨q, hq, rfl⟩; exact ⟨q, hq, rfl⟩
  · rintro ⟨q, hq, rfl⟩; exact ⟨q, hq, rfl⟩

theorem firstOcc_aux_mem (keys : List String) :
    ∀ (acc : List String) (x : String),
      x ∈ keys.foldl (fun acc k => if k ∈ acc then acc else acc ++ [k]) acc ↔
        x ∈ acc ∨ x ∈ keys := by
  induction keys with
  | nil => simp
  | cons a t ih =>
    intro acc x
    rw [List.foldl_cons]
    by_cases h : a ∈ acc
    · rw [if_pos h, ih]
      constructor
      · rintro (hx | hx)
        · exact Or.inl hx
        · exact Or.inr (List.mem_cons_of_mem _ hx)
      · rintro (hx | hx)
        · exact Or.inl hx
        · rcases List.mem_cons.1 hx with rfl | hx
          · exact Or.inl h
          · exact Or.inr hx
    · rw [if_neg h, ih]
      simp only [List.mem_append, List.mem_singleton, List.mem_cons]
      tauto

theorem firstOcc_aux_nodup (keys : List String) :
    ∀ (acc : List String), acc.Nodup →
      (keys.foldl (fun acc k => if k ∈ acc then acc else acc ++ [k]) acc).Nodup := by
  induction keys with
  | nil => intro acc h; simpa
  | cons a t ih =>
    intro acc h
    rw [List.foldl_cons]
    by_cases ha : a ∈ acc
    · rw [if_pos ha]; exact ih acc h
    · rw [if_neg ha]
      refine ih _ ?_
      simpa [List.nodup_append] using ⟨h, ha⟩

theorem firstOccurrences_nodup (keys : List String) : (firstOccurrences keys).Nodup :=
  firstOcc_aux_nodup keys [] List.nodup_nil

theorem mem_firstOccurrences {keys : List String} {x : String} :
    x ∈ firstOccurrences keys ↔ x ∈ keys := by
  rw [firstOccurrences, firstOcc_aux_mem]
  simp

/-! ### Deduplicator lemmas -/

theorem nodup_keys_unique {β : Type} {l : List (String × β)}
    (hnd : (l.map Prod.fst).Nodup) {k : String} {p q : β}
    (hp : (k, p) ∈ l) (hq : (k, q) ∈ l) : p = q := by
  induction l with
  | nil => simp at hp
  | cons a t ih =>
    simp only [List.map_cons, List.nodup_cons] at hnd
    rcases List.mem_cons.1 hp with rfl | hp' <;>
      rcases List.mem_cons.1 hq with h2 | hq'
    · exact ((Prod.ext_iff.1 h2).2).symm
    · exact absurd (List.mem_map_of_mem Prod.fst hq') hnd.1
    · rw [← h2] at hnd
      exact absurd (List.mem_map_of_mem Prod.fst hp') hnd.1
    · exact ih hnd.2 hp' hq'

theorem dedupStep_eq (seen : List (String × ActionItem)) (item : ActionItem) :
    dedupStep seen item =
      match seen.lookup (normKey item.title) with
      | none => seen ++ [(normKey item.title, item)]
      | some existing =>
        if descLen item > descLen existing then setKey seen (normKey item.title) item
        else seen := rfl

theorem dedupInv_step {processed : List ActionItem} {seen : List (String × ActionItem)}
    {item : ActionItem} (h : DedupInv processed seen) :
    DedupInv (processed ++ [item]) (dedupStep seen item) := by
  obtain ⟨hent, hcov, hnd⟩ := h
  cases hlk : seen.lookup (normKey item.title) with
  | none =>
    have hstep : dedupStep seen item = seen ++ [(normKey item.title, item)] := by
      simp only [dedupStep_eq, hlk]
    rw [hstep]
    have hout : normKey item.title ∉ seen.map Prod.fst := (lookup_eq_none_iff _ _).1 hlk
    refine ⟨?_, ?_, ?_⟩
    · intro p hp
      rcases List.mem_append.1 hp with hpSeen | hpNew
      · obtain ⟨hk, hmem, hmax⟩ := hent p hpSeen
        refine ⟨hk, List.mem_append_left _ hmem, ?_⟩
        intro y hy hky
        rcases List.mem_append.1 hy with hyOld | hyNew
        · exact hmax y hyOld hky
        · have hyi := List.mem_singleton.1 hyNew
          subst hyi
          refine absurd ?_ hout
          rw [hky]
          exact List.mem_map_of_mem Prod.fst hpSeen
      · rcases List.mem_singleton.1 hpNew with rfl
        refine ⟨rfl, List.mem_append_right _ (List.mem_singleton.2 rfl), ?_⟩
        intro y hy hky
        have hky' : normKey y.title = normKey item.title := hky
        rcases List.mem_append.1 hy with hyOld | hyNew
        · refine absurd ?_ hout
          rw [← hky']
          exact hcov y hyOld
        · have hyi := List.mem_singleton.1 hyNew
          subst hyi
          exact le_refl _
    · intro y hy
      rw [List.map_append]
      rcases List.mem_append.1 hy with hyOld | hyNew
      · exact List.mem_append_left _ (hcov y hyOld)
      · have hyi := List.mem_singleton.1 hyNew
        subst hyi
        simp
    · rw [List.map_append]
      refine List.Nodup.append hnd (List.nodup_singleton _) ?_
      intro x hx hx2
      simp only [List.map_cons, List.map_nil, List.mem_singleton] at hx2
      rw [hx2] at hx
      exact hout hx
  | some existing =>
    have hmemkv : (normKey item.title, existing) ∈ seen := lookup_mem hlk
    have hin : normKey item.title ∈ seen.map Prod.fst :=
      List.mem_map_of_mem Prod.fst hmemkv
    obtain ⟨_, hexmem, hexmax⟩ := hent _ hmemkv
    by_cases hgt : descLen item > descLen existing
    · have hstep : dedupStep seen item = setKey seen (normKey item.title) item := by
        simp only [dedupStep_eq, hlk]
        rw [if_pos hgt]
      rw [hstep]
      refine ⟨?_, ?_, ?_⟩
      · intro p hp
        rw [mem_setKey] at hp
        obtain ⟨q, hq, rfl⟩ := hp
        obtain ⟨hqk, hqmem, hqmax⟩ := hent q hq
        by_cases hqkey : q.1 = normKey item.title
        · rw [if_pos hqkey]
          refine ⟨rfl, List.mem_append_right _ (List.mem_singleton.2 rfl), ?_⟩
          intro y hy hky
          rcases List.mem_append.1 hy with hyOld | hyNew
          · exact le_trans (hexmax y hyOld hky) (le_of_lt hgt)
          · have hyi := List.mem_singleton.1 hyNew
            subst hyi
            exact le_refl _
        · rw [if_neg hqkey]
          refine ⟨hqk, List.mem_append_left _ hqmem, ?_⟩
          intro y hy hky
          rcases List.mem_append.1 hy with hyOld | hyNew
          · exact hqmax y hyOld hky
          · have hyi := List.mem_singleton.1 hyNew
            subst hyi
            exact absurd hky.symm hqkey
      · intro y hy
        rw [setKey_map_fst]
        rcases List.mem_append.1 hy with hyOld | hyNew
        · exact hcov y hyOld
        · have hyi := List.mem_singleton.1 hyNew
          subst hyi
          exact hin
      · rw [setKey_map_fst]; exact hnd
    · have hstep : dedupStep seen item = seen := by
        simp only [dedupStep_eq, hlk]
        rw [if_neg hgt]
      rw [hstep]
      refine ⟨?_, ?_, hnd⟩
      · intro p hp
        obtain ⟨hqk, hqmem, hqmax⟩ := hent p hp
        refine ⟨hqk, List.mem_append_left _ hqmem, ?_⟩
        intro y hy hky
        rcases List.mem_append.1 hy with hyOld | hyNew
        · exact hqmax y hyOld hky
        · have hyi := List.mem_singleton.1 hyNew
          subst hyi
          have hpeq : p = (normKey y.title, p.2) := Prod.ext hky.symm rfl
          have hp2 : p.2 = existing :=
            nodup_keys_unique hnd (hpeq ▸ hp) hmemkv
          rw [hp2]
          exact le_of_not_lt hgt
      · intro y hy
        rcases List.mem_append.1 hy with hyOld | hyNew
        · exact hcov y hyOld
        · have hyi := List.mem_singleton.1 hyNew
          subst hyi
          exact hin

theorem dedupInv_foldl (items : List ActionItem) :
    ∀ (processed : List ActionItem) (seen : List (String × ActionItem)),
      DedupInv processed seen → DedupInv (processed ++ items) (items.foldl dedupStep seen) := by
  induction items with
  | nil => intro processed seen h; simpa using h
  | cons a t ih =>
    intro processed seen h
    have := ih (processed ++ [a]) (dedupStep seen a) (dedupInv_step h)
    simpa using this

theorem dedupInv_result (items : List ActionItem) :
    DedupInv items (items.foldl dedupStep []) := by
  have := dedupInv_foldl items [] [] ⟨by simp, by simp, List.nodup_nil⟩
  simpa using this

theorem dedup_keys_foldl (items : List ActionItem) :
    ∀ (seen : List (String × ActionItem)),
      ((items.foldl dedupStep seen).map Prod.fst)
        = items.foldl
            (fun acc it => if normKey it.title ∈ acc then acc else acc ++ [normKey it.title])
            (seen.map Prod.fst) := by
  induction items with
  | nil => intro _; rfl
  | cons a t ih =>
    intro seen
    rw [List.foldl_cons, List.foldl_cons, ih]
    congr 1
    cases hlk : seen.lookup (normKey a.title) with
    | none =>
      have hout : normKey a.title ∉ seen.map Prod.fst := (lookup_eq_none_iff _ _).1 hlk
      have hstep : dedupStep seen a = seen ++ [(normKey a.title, a)] := by
        simp only [dedupStep_eq, hlk]
      rw [hstep]
      simp [hout]
    | some ex =>
      have hin : normKey a.title ∈ seen.map Prod.fst :=
        List.mem_map_of_mem Prod.fst (lookup_mem hlk)
      by_cases hgt : descLen a > descLen ex
      · have hstep : dedupStep seen a = setKey seen (normKey a.title) a := by
          simp only [dedupStep_eq, hlk]
          rw [if_pos hgt]
        rw [hstep, setKey_map_fst, if_pos hin]
      · have hstep : dedupStep seen a = seen := by
          simp only [dedupStep_eq, hlk]
          rw [if_neg hgt]
        rw [hstep, if_pos hin]

theorem dedup_foldl_extend (items : List ActionItem) :
    ∀ (seen : List (String × ActionItem)),
      (∀ it ∈ items, normKey it.title ∉ seen.map Prod.fst) →
      (items.map (fun it => normKey it.title)).Nodup →
      items.foldl dedupStep seen = seen ++ items.map (fun it => (normKey it.title, it)) := by
  induction items with
  | nil => intro seen _ _; simp
  | cons a t ih =>
    intro seen hout hnd
    rw [List.foldl_cons]
    have hlk : seen.lookup (normKey a.title) = none :=
      (lookup_eq_none_iff _ _).2 (hout a (List.mem_cons_self a t))
    have hstep : dedupStep seen a = seen ++ [(normKey a.title, a)] := by
      simp only [dedupStep_eq, hlk]
    rw [hstep]
    simp only [List.map_cons, List.nodup_cons] at hnd
    rw [ih (seen ++ [(normKey a.title, a)]) ?_ hnd.2]
    · simp
    · intro it hit
      rw [List.map_append]
      simp only [List.mem_append, List.map_cons, List.map_nil, List.mem_singleton,
        List.not_mem_nil, or_false]
      rintro (h | h)
      · exact hout it (List.mem_cons_of_mem _ hit) h
      · exact hnd.1 (h ▸ List.mem_map_of_mem (fun it => normKey it.title) hit)

/-- Claim C5: the Deduplicator groups by the normalized key (title
lower-cased, non-alphanumerics stripped); each survivor is one of the inputs
and carries a maximal-length description within its key group (so of two
colliding items the one with the strictly longer description survives, the
first on ties); survivors keep first-seen key order; and deduplication is
idempotent. -/
theorem C5_deduplicator (items : List ActionItem) :
    ((deduplicateItems items).map (fun it => normKey it.title)
        = firstOccurrences (items.map (fun it => normKey it.title))) ∧
    (∀ it ∈ deduplicateItems items, it ∈ items ∧
      ∀ y ∈ items, normKey y.title = normKey it.title → descLen y ≤ descLen it) ∧
    (∀ a b : ActionItem, normKey a.title = normKey b.title →
      deduplicateItems [a, b] = [if descLen b > descLen a then b else a]) ∧
    deduplicateItems (deduplicateItems items) = deduplicateItems items := by
  obtain ⟨hent, hcov, hnd⟩ := dedupInv_result items
  have hkeys : ∀ items₀ : List ActionItem,
      (deduplicateItems items₀).map (fun it => normKey it.title)
        = firstOccurrences (items₀.map (fun it => normKey it.title)) := by
    intro items₀
    obtain ⟨hent₀, _, _⟩ := dedupInv_result items₀
    have h1 : (deduplicateItems items₀).map (fun it => normKey it.title)
        = (items₀.foldl dedupStep []).map Prod.fst := by
      rw [deduplicateItems, List.map_map]
      apply List.map_congr_left
      intro p hp
      exact ((hent₀ p hp).1).symm
    rw [h1, dedup_keys_foldl items₀ [], firstOccurrences, List.foldl_map]
    rfl
  refine ⟨hkeys items, ?_, ?_, ?_⟩
  · intro it hit
    rw [deduplicateItems, List.mem_map] at hit
    obtain ⟨p, hp, rfl⟩ := hit
    obtain ⟨hk, hmem, hmax⟩ := hent p hp
    exact ⟨hmem, fun y hy hky => hmax y hy (hky.trans hk.symm)⟩
  · intro a b hk
    have h1 : dedupStep [] a = [(normKey a.title, a)] := rfl
    have hlk : [(normKey a.title, a)].lookup (normKey b.title) = some a := by
      have : (normKey b.title == normKey a.title) = true := beq_iff_eq.2 hk.symm
      simp [List.lookup, this]
    have h2 : dedupStep [(normKey a.title, a)] b
        = if descLen b > descLen a then [(normKey b.title, b)] else [(normKey a.title, a)] := by
      simp only [dedupStep_eq, hlk]
      by_cases hgt : descLen b > descLen a
      · rw [if_pos hgt, if_pos hgt]
        simp [setKey, ← hk]
      · rw [if_neg hgt, if_neg hgt]
    rw [deduplicateItems, List.foldl_cons, List.foldl_cons, List.foldl_nil, h1, h2]
    by_cases hgt : descLen b > descLen a
    · simp [hgt]
    · simp [hgt]
  · have houtkeys : ((deduplicateItems items).map (fun it => normKey it.title)).Nodup := by
      rw [hkeys items]
      exact firstOccurrences_nodup _
    have hext : (deduplicateItems items).foldl dedupStep []
        = [] ++ (deduplicateItems items).map (fun it => (normKey it.title, it)) :=
      dedup_foldl_extend _ [] (by simp) houtkeys
    calc deduplicateItems (deduplicateItems items)
        = ((deduplicateItems items).foldl dedupStep []).map Prod.snd := rfl
      _ = ((deduplicateItems items).map (fun it => (normKey it.title, it))).map Prod.snd := by
          rw [hext, List.nil_append]
      _ = deduplicateItems items := by
          rw [List.map_map]
          exact List.map_id _ ▸ rfl

/-! ### Retry wrapper lemmas -/


theorem delays_shift (d : Nat → ℤ) (attempt j : Nat) :
    [d attempt] ++ (List.range j).map (fun n => d (attempt + 1 + n))
      = (List.range (j + 1)).map (fun n => d (attempt + n)) := by
  rw [List.range_succ_eq_map, List.map_cons, List.map_map, List.singleton_append]
  have h1 : d (attempt + 0) = d attempt := by rw [Nat.add_zero]
  rw [h1]
  congr 1
  apply List.map_congr_left
  intro n _
  simp only [Function.comp_apply]
  congr 1
  omega

theorem retryLoop_ok {α : Type} (cfg : RetryConfig) (ctx : CorrelationContext)
    (op : Nat → Except JSError α) (rands : Nat → ℚ) :
    ∀ (j fuel attempt : Nat) (v : α) (le? : Option JSError) (ds : List ℤ),
      j < fuel →
      (∀ i, attempt ≤ i → i < attempt + j → ∃ e, op i = .error e ∧ isRetryableError e = true) →
      op (attempt + j) = .ok v →
      retryLoop cfg ctx op rands attempt fuel le? ds
        = ⟨.ok v, attempt + j,
            ds ++ (List.range j).map
              (fun n => calculateBackoffDelay (attempt + n) cfg (rands (attempt + n)))⟩ := by
  intro j
  induction j with
  | zero =>
    intro fuel attempt v le? ds hlt hfail hok
    rw [Nat.add_zero] at hok
    match fuel, hlt with
    | f + 1, _ =>
      simp only [retryLoop, hok]
      simp
  | succ j ih =>
    intro fuel attempt v le? ds hlt hfail hok
    match fuel, hlt with
    | f + 1, hlt =>
      obtain ⟨e, he, hre⟩ := hfail attempt (le_refl _) (by omega)
      have hf : (f ≠ 0 && isRetryableError e) = true := by
        simp [hre]
        omega
      simp only [retryLoop, he, hf, if_true]
      have hrec := ih f (attempt + 1) v (some e)
        (ds ++ [calculateBackoffDelay attempt cfg (rands attempt)])
        (by omega)
        (fun i h1 h2 => hfail i (by omega) (by omega))
        (by rw [← hok]; congr 1; omega)
      rw [hrec]
      congr 1
      · omega
      · rw [List.append_assoc]
        congr 1
        exact delays_shift (fun m => calculateBackoffDelay m cfg (rands m)) attempt j

theorem retryLoop_exhaust {α : Type} (cfg : RetryConfig) (ctx : CorrelationContext)
    (op : Nat → Except JSError α) (rands : Nat → ℚ) :
    ∀ (fuel attempt : Nat) (le? : Option JSError) (ds : List ℤ),
      1 ≤ fuel →
      (∀ i, attempt ≤ i → i < attempt + fuel → ∃ e, op i = .error e ∧ isRetryableError e = true) →
      ∃ msg, retryLoop cfg ctx op rands attempt fuel le? ds
        = ⟨.error (.agentError (mkActionAgentError msg ctx false none)),
            attempt + fuel - 1,
            ds ++ (List.range (fuel - 1)).map
              (fun n => calculateBackoffDelay (attempt + n) cfg (rands (attempt + n)))⟩ := by
  intro fuel
  induction fuel with
  | zero => intro attempt le? ds h _; omega
  | succ f ih =>
    intro attempt le? ds _ hfail
    obtain ⟨e, he, hre⟩ := hfail attempt (le_refl _) (by omega)
    by_cases hf : f = 0
    · subst hf
      refine ⟨terminalMessage (some e), ?_⟩
      simp only [retryLoop, he]
      simp
    · have hcond : (f ≠ 0 && isRetryableError e) = true := by simp [hre, hf]
      simp only [retryLoop, he, hcond, if_true]
      obtain ⟨msg, hmsg⟩ := ih (attempt + 1) (some e)
        (ds ++ [calculateBackoffDelay attempt cfg (rands attempt)])
        (by omega)
        (fun i h1 h2 => hfail i (by omega) (by omega))
      refine ⟨msg, ?_⟩
      rw [hmsg]
      congr 1
      · omega
      · rw [List.append_assoc]
        congr 1
        have hf1 : f - 1 + 1 = f := by omega
        have hshift := delays_shift (fun m => calculateBackoffDelay m cfg (rands m)) attempt (f - 1)
        rw [hf1] at hshift
        exact hshift



/-- Claim C3: with retries enabled, an operation failing retryably on attempts
1..k−1 and succeeding on attempt k ≤ maxAttempts returns that success after
exactly k invocations, the pre-retry delay before attempt n+1 being
`calculateBackoffDelay` at attempt n (whose jitter-free core
baseDelay·2^(n−1) capped at maxDelay is non-decreasing); exhausting all
attempts, or hitting a non-retryable error, raises a terminal
`ActionAgentError` carrying the correlation id. -/
theorem C3_retry_wrapper (α : Type) (cfg : RetryConfig) (ctx : CorrelationContext)
    (op : Nat → Except JSError α) (rands : Nat → ℚ) :
    (∀ (k : Nat) (v : α), 1 ≤ k → k ≤ cfg.maxAttempts →
      (∀ i, 1 ≤ i → i < k → ∃ e, op i = .error e ∧ isRetryableError e = true) →
      op k = .ok v →
      withRetry true cfg ctx op rands
        = ⟨.ok v, k,
            (List.range (k - 1)).map
              (fun n => calculateBackoffDelay (1 + n) cfg (rands (1 + n)))⟩) ∧
    (∀ n m : Nat, n ≤ m → cappedBackoffCore cfg n ≤ cappedBackoffCore cfg m) ∧
    (1 ≤ cfg.maxAttempts →
      (∀ i, 1 ≤ i → i ≤ cfg.maxAttempts → ∃ e, op i = .error e ∧ isRetryableError e = true) →
      ∃ err, withRetry true cfg ctx op rands
          = ⟨.error (.agentError err), cfg.maxAttempts,
              (List.range (cfg.maxAttempts - 1)).map
                (fun n => calculateBackoffDelay (1 + n) cfg (rands (1 + n)))⟩ ∧
        err.correlationId = ctx.correlationId) ∧
    (∀ e, op 1 = .error e → isRetryableError e = false → 1 ≤ cfg.maxAttempts →
      ∃ err, withRetry true cfg ctx op rands = ⟨.error (.agentError err), 1, []⟩ ∧
        err.correlationId = ctx.correlationId) := by
  refine ⟨?_, ?_, ?_, ?_⟩
  · intro k v hk1 hkm hfail hok
    rw [withRetry, if_pos rfl]
    have hk : 1 + (k - 1) = k := by omega
    have h := retryLoop_ok cfg ctx op rands (k - 1) cfg.maxAttempts 1 v none []
      (by omega)
      (fun i h1 h2 => hfail i h1 (by omega))
      (by rw [hk]; exact hok)
    rw [h, hk]
    simp
  · intro n m hnm
    unfold cappedBackoffCore
    refine min_le_min ?_ (le_refl _)
    refine mul_le_mul_of_nonneg_left ?_ (by positivity)
    exact pow_le_pow_right₀ (by norm_num) (by omega)
  · intro hmax hfail
    obtain ⟨msg, h⟩ := retryLoop_exhaust cfg ctx op rands cfg.maxAttempts 1 none []
      hmax (fun i h1 h2 => hfail i h1 (by omega))
    refine ⟨mkActionAgentError msg ctx false none, ?_, rfl⟩
    rw [withRetry, if_pos rfl, h]
    congr 1
    omega
  · intro e he hre hmax
    obtain ⟨m, hm⟩ : ∃ m, cfg.maxAttempts = m + 1 := ⟨cfg.maxAttempts - 1, by omega⟩
    refine ⟨mkActionAgentError (terminalMessage (some e)) ctx false none, ?_, rfl⟩
    rw [withRetry, if_pos rfl, hm]
    simp only [retryLoop, he, hre, Bool.and_false, if_neg]
    simp

/-- Concrete instance of C3: a stub backend failing twice with a 503 then
succeeding yields the success after exactly 3 attempts, with increasing
delays (1000 ms then 2000 ms at zero jitter draw). -/
theorem C3_retry_wrapper_witness :
    withRetry true ⟨3, 1000, 30000, 1/5⟩ ⟨"cid-r", "AI.OpenAICall"⟩
        (fun i => if i < 3 then .error (.plainError ⟨"Request failed with status 503"⟩)
          else .ok (42 : Nat))
        (fun _ => 1/2)
      = ⟨.ok 42, 3, [1000, 2000]⟩ := by
  have h := (C3_retry_wrapper Nat ⟨3, 1000, 30000, 1/5⟩ ⟨"cid-r", "AI.OpenAICall"⟩
      (fun i => if i < 3 then .error (.plainError ⟨"Request failed with status 503"⟩)
        else .ok (42 : Nat))
      (fun _ => 1/2)).1 3 42 (by norm_num) (by norm_num)
    (by
      intro i h1 h2
      interval_cases i
      · exact ⟨.plainError ⟨"Request failed with status 503"⟩, rfl, by decide⟩
      · exact ⟨.plainError ⟨"Request failed with status 503"⟩, rfl, by decide⟩)
    (by norm_num)
  rw [h]
  congr 1
  have h1 : calculateBackoffDelay 1 ⟨3, 1000, 30000, 1/5⟩ (1/2 : ℚ) = 1000 := by
    unfold calculateBackoffDelay
    norm_num
  have h2 : calculateBackoffDelay 2 ⟨3, 1000, 30000, 1/5⟩ (1/2 : ℚ) = 2000 := by
    unfold calculateBackoffDelay
    norm_num
  rw [show (3 : Nat) - 1 = 2 from rfl, show List.range 2 = [0, 1] from rfl,
    List.map_cons, List.map_cons, List.map_nil,
    show (1 : Nat) + 0 = 1 from rfl, show (1 : Nat) + 1 = 2 from rfl, h1, h2]




/-! ### Delivery batching lemmas -/

theorem settle_filter_ok (create : Nat → ActionItem → Except JsErrorObj ExtendedWorkItemResult)
    (batch : List ActionItem) : ∀ (start : Nat),
    (settleBatch create start batch).filterMap (fun p =>
        match p.2 with
        | .ok v => some v
        | .error _ => none)
      = sequentialResults create start batch := by
  induction batch with
  | nil => intro start; rfl
  | cons t ts ih =>
    intro start
    simp only [settleBatch, List.filterMap_cons, sequentialResults]
    cases create start t <;> simp [ih]

theorem settle_filter_err (create : Nat → ActionItem → Except JsErrorObj ExtendedWorkItemResult)
    (batch : List ActionItem) : ∀ (start : Nat),
    (settleBatch create start batch).filterMap (fun p =>
        match p.2 with
        | .ok _ => none
        | .error e => some (p.1, e))
      = sequentialErrors create start batch := by
  induction batch with
  | nil => intro start; rfl
  | cons t ts ih =>
    intro start
    simp only [settleBatch, List.filterMap_cons, sequentialErrors]
    cases create start t <;> simp [ih]

theorem sequentialResults_append
    (create : Nat → ActionItem → Except JsErrorObj ExtendedWorkItemResult)
    (l1 l2 : List ActionItem) : ∀ (start : Nat),
    sequentialResults create start (l1 ++ l2)
      = sequentialResults create start l1
        ++ sequentialResults create (start + l1.length) l2 := by
  induction l1 with
  | nil => intro start; simp [sequentialResults]
  | cons t ts ih =>
    intro start
    have harg : start + 1 + ts.length = start + (ts.length + 1) := by omega
    cases hc : create start t <;>
      simp only [List.cons_append, List.append_eq, sequentialResults, hc, List.length_cons] <;>
      rw [ih (start + 1), harg] <;> simp

theorem sequentialErrors_append
    (create : Nat → ActionItem → Except JsErrorObj ExtendedWorkItemResult)
    (l1 l2 : List ActionItem) : ∀ (start : Nat),
    sequentialErrors create start (l1 ++ l2)
      = sequentialErrors create start l1
        ++ sequentialErrors create (start + l1.length) l2 := by
  induction l1 with
  | nil => intro start; simp [sequentialErrors]
  | cons t ts ih =>
    intro start
    have harg : start + 1 + ts.length = start + (ts.length + 1) := by omega
    cases hc : create start t <;>
      simp only [List.cons_append, List.append_eq, sequentialErrors, hc, List.length_cons] <;>
      rw [ih (start + 1), harg] <;> simp

theorem sequential_lengths
    (create : Nat → ActionItem → Except JsErrorObj ExtendedWorkItemResult)
    (tasks : List ActionItem) : ∀ (start : Nat),
    (sequentialResults create start tasks).length
        + (sequentialErrors create start tasks).length = tasks.length := by
  induction tasks with
  | nil => intro start; rfl
  | cons t ts ih =>
    intro start
    have := ih (start + 1)
    cases hc : create start t <;>
      simp only [sequentialResults, sequentialErrors, hc, List.length_cons] <;>
      omega

theorem createWorkItemsGo_spec
    (create : Nat → ActionItem → Except JsErrorObj ExtendedWorkItemResult) :
    ∀ (n : Nat) (tasks : List ActionItem), tasks.length ≤ n → ∀ (start : Nat),
      createWorkItemsGo create start tasks
        = (sequentialResults create start tasks, sequentialErrors create start tasks) := by
  intro n
  induction n with
  | zero =>
    intro tasks hlen start
    have hz : tasks = [] := List.length_eq_zero.1 (Nat.le_zero.1 hlen)
    subst hz
    rw [createWorkItemsGo]
    rfl
  | succ n ih =>
    intro tasks hlen start
    by_cases hz : tasks = []
    · subst hz
      rw [createWorkItemsGo]
      rfl
    · rw [createWorkItemsGo, dif_neg hz]
      simp only
      rw [settle_filter_ok, settle_filter_err,
        ih (tasks.drop MAX_CONCURRENT)
          (by rw [List.length_drop]; simp only [MAX_CONCURRENT]; omega) (start + MAX_CONCURRENT)]
      by_cases hlen5 : MAX_CONCURRENT ≤ tasks.length
      · have htake : (tasks.take MAX_CONCURRENT).length = MAX_CONCURRENT := by
          rw [List.length_take]
          omega
        conv_rhs => rw [← List.take_append_drop MAX_CONCURRENT tasks]
        rw [sequentialResults_append, sequentialErrors_append, htake]
      · have hdrop : tasks.drop MAX_CONCURRENT = [] :=
          List.drop_eq_nil_of_le (by omega)
        have htake : tasks.take MAX_CONCURRENT = tasks :=
          List.take_of_length_le (by omega)
        rw [hdrop, htake]
        simp [sequentialResults, sequentialErrors]

/-- Claim C4: batched delivery attempts every item: the returned list is
exactly the successes in order (one `DeliveryRecord` per successful creation,
failed items absent), the collected failures are exactly the failing items
with their errors, their counts add up to the batch size, and the call is a
total function (never raises).  In particular, delivering 3 items where the
backend fails only on the 2nd yields exactly the 1st and 3rd records. -/
theorem C4_partial_delivery
    (create : Nat → ActionItem → Except JsErrorObj ExtendedWorkItemResult)
    (tasks : List ActionItem) :
    createWorkItems create tasks = sequentialResults create 0 tasks ∧
    (createWorkItemsGo create 0 tasks).2 = sequentialErrors create 0 tasks ∧
    (createWorkItems create tasks).length + (createWorkItemsGo create 0 tasks).2.length
      = tasks.length ∧
    (∀ (t₁ t₂ t₃ : ActionItem) (r₁ r₃ : ExtendedWorkItemResult) (e : JsErrorObj),
      createWorkItems
          (fun i _ => if i = 0 then .ok r₁ else if i = 1 then .error e else .ok r₃)
          [t₁, t₂, t₃]
        = [r₁, r₃]) := by
  have hgo := createWorkItemsGo_spec create tasks.length tasks (le_refl _) 0
  refine ⟨?_, ?_, ?_, ?_⟩
  · rw [createWorkItems, hgo]
  · rw [hgo]
  · rw [createWorkItems, hgo]
    exact sequential_lengths create tasks 0
  · intro t₁ t₂ t₃ r₁ r₃ e
    rw [createWorkItems,
      createWorkItemsGo_spec _ 3 [t₁, t₂, t₃] (by norm_num) 0]
    rfl

/-! ### Identity-resolution batching lemmas -/

theorem resolveUsersBatches_eq_map (resolver : String → ResolutionResult) :
    ∀ (n : Nat) (names : List String), names.length ≤ n →
      resolveUsersBatches resolver names = names.map (fun nm => (nm, resolver nm)) := by
  intro n
  induction n with
  | zero =>
    intro names hlen
    have hz : names = [] := List.length_eq_zero.1 (Nat.le_zero.1 hlen)
    subst hz
    rw [resolveUsersBatches]
    rfl
  | succ n ih =>
    intro names hlen
    by_cases hz : names = []
    · subst hz
      rw [resolveUsersBatches]
      rfl
    · rw [resolveUsersBatches, dif_neg hz,
        ih (names.drop 5) (by rw [List.length_drop]; omega),
        ← List.map_append, List.take_append_drop]

/-- Claim C9 (amended): the batch resolver returns one entry per unique input
name excluding empty names and the exact literal `"Unassigned"`, keyed
case-sensitively by the original string as supplied (not the lower-cased
cache key), in first-occurrence order, each carrying that name's resolution. -/
theorem C9_resolve_many (names : List String) (resolver : String → ResolutionResult) :
    resolveUsers names resolver
        = (firstOccurrences (names.filter (fun n => n ≠ "" && n ≠ "Unassigned"))).map
            (fun n => (n, resolver n)) ∧
    ((resolveUsers names resolver).map Prod.fst).Nodup ∧
    (∀ n, n ∈ (resolveUsers names resolver).map Prod.fst ↔
      n ∈ names ∧ n ≠ "" ∧ n ≠ "Unassigned") ∧
    (∀ p ∈ resolveUsers names resolver, p.2 = resolver p.1) := by
  have h1 : resolveUsers names resolver
      = (firstOccurrences (names.filter (fun n => n ≠ "" && n ≠ "Unassigned"))).map
          (fun n => (n, resolver n)) :=
    resolveUsersBatches_eq_map resolver _ _ (le_refl _)
  have hfst : (resolveUsers names resolver).map Prod.fst
      = firstOccurrences (names.filter (fun n => n ≠ "" && n ≠ "Unassigned")) := by
    rw [h1, List.map_map]
    have hcomp : (Prod.fst ∘ fun n : String => (n, resolver n)) = id := rfl
    rw [hcomp, List.map_id]
  refine ⟨h1, ?_, ?_, ?_⟩
  · rw [hfst]
    exact firstOccurrences_nodup _
  · intro n
    rw [hfst, mem_firstOccurrences, List.mem_filter]
    simp
  · intro p hp
    rw [h1] at hp
    rw [List.mem_map] at hp
    obtain ⟨nm, _, rfl⟩ := hp
    rfl

/-- Claim C9 counterexample: the input `["", "Unassigned", "unassigned"]` has
three unique names, but the code filters out the empty name and the exact
literal `"Unassigned"` before deduplicating, so the returned mapping has just
one entry (for `"unassigned"`, which survives the case-sensitive filter) —
not one entry per unique input name. -/
theorem C9_counterexample :
    firstOccurrences ["", "Unassigned", "unassigned"] = ["", "Unassigned", "unassigned"] ∧
    resolveUsers ["", "Unassigned", "unassigned"] stubResolution
      = [("unassigned", stubResolution "unassigned")] ∧
    (resolveUsers ["", "Unassigned", "unassigned"] stubResolution).length ≠ 3 := by
  have hL : firstOccurrences ((["", "Unassigned", "unassigned"] : List String).filter
      (fun n => n ≠ "" && n ≠ "Unassigned")) = ["unassigned"] := by decide
  have h2 : resolveUsers ["", "Unassigned", "unassigned"] stubResolution
      = [("unassigned", stubResolution "unassigned")] := by
    rw [resolveUsers, hL, resolveUsersBatches_eq_map stubResolution 1 ["unassigned"] (by norm_num)]
    rfl
  refine ⟨by decide, h2, ?_⟩
  rw [h2]
  norm_num


/-- Instance of C5 at two concretely colliding items: `"Fix login bug!"` and
`"fix login bug"` share the normalized key, and the longer-description item
survives. -/
theorem C5_deduplicator_witness : deduplicateItems [itemA, itemB] = [itemB] := by
  have h := (C5_deduplicator [itemA, itemB]).2.2.1 itemA itemB (by decide)
  rw [h]
  decide

/-- Instance of the amended C9 at a concrete name list: the duplicate and the
empty name are dropped and the surviving entry carries its resolution. -/
theorem C9_resolve_many_witness :
    resolveUsers ["Sam", "Sam", ""] stubResolution = [("Sam", stubResolution "Sam")] ∧
    ("Sam", stubResolution "Sam").2 = stubResolution "Sam" := by
  have h := C9_resolve_many ["Sam", "Sam", ""] stubResolution
  have hfo : firstOccurrences ((["Sam", "Sam", ""] : List String).filter
      (fun n => n ≠ "" && n ≠ "Unassigned")) = ["Sam"] := by decide
  have hval : resolveUsers ["Sam", "Sam", ""] stubResolution
      = [("Sam", stubResolution "Sam")] := by
    rw [h.1, hfo]
    rfl
  exact ⟨hval, h.2.2.2 _ (hval.symm ▸ List.mem_singleton.2 rfl)⟩



/-- Claim C10: when the effective assignee identity is empty or the literal
`"Unassigned"` and a triage user is configured, the built record carries
`System.AssignedTo` set to exactly the configured triage user; only when no
triage user is configured is the `AssignedTo` field left out of the record
for unassigned items. -/
theorem C10_triage_assignment (cfg : AdoConfig) (now : JsDate)
    (genericParse : String → Option JsDate) (task : ActionItem)
    (assigneeIdentity correlationId : String)
    (h : assigneeIdentity = "" ∨ assigneeIdentity = "Unassigned") :
    (cfg.triageUser ≠ "" →
      (buildPatchDocument cfg now genericParse task assigneeIdentity correlationId).filter
          (fun p => p.path == "/fields/System.AssignedTo")
        = [⟨"add", "/fields/System.AssignedTo", .str cfg.triageUser⟩]) ∧
    (cfg.triageUser = "" →
      (buildPatchDocument cfg now genericParse task assigneeIdentity correlationId).filter
          (fun p => p.path == "/fields/System.AssignedTo") = []) := by
  have hassign : (assigneeIdentity ≠ "" && assigneeIdentity ≠ "Unassigned") = false := by
    rcases h with rfl | rfl <;> simp
  constructor
  · intro ht
    simp only [buildPatchDocument, hassign, Bool.false_eq_true, if_false]
    rw [if_pos ht]
    cases task.deadline with
    | none =>
      simp only []
      split_ifs <;> simp [List.filter_append, List.filter]
    | some dl =>
      simp only []
      by_cases hdl : dl = ""
      · subst hdl
        simp only [if_pos rfl]
        split_ifs <;> simp [List.filter_append, List.filter]
      · rw [if_neg hdl]
        cases parseDeadline now genericParse dl with
        | none => split_ifs <;> simp [List.filter_append, List.filter]
        | some d => split_ifs <;> simp [List.filter_append, List.filter]
  · intro ht
    simp only [buildPatchDocument, hassign, Bool.false_eq_true, if_false]
    rw [if_neg (show ¬ cfg.triageUser ≠ "" from by simp [ht])]
    cases task.deadline with
    | none =>
      simp only []
      split_ifs <;> simp [List.filter_append, List.filter]
    | some dl =>
      simp only []
      by_cases hdl : dl = ""
      · subst hdl
        simp only [if_pos rfl]
        split_ifs <;> simp [List.filter_append, List.filter]
      · rw [if_neg hdl]
        cases parseDeadline now genericParse dl with
        | none => split_ifs <;> simp [List.filter_append, List.filter]
        | some d => split_ifs <;> simp [List.filter_append, List.filter]


/-- Instance of C10 at a concrete configuration: with a triage user configured
and an empty assignee the document assigns the triage user. -/
theorem C10_triage_assignment_witness :
    (buildPatchDocument ⟨"Engineering", "Task", "", "", "triage@example.com"⟩ ⟨0, 0⟩
        (fun _ => none) ⟨"Fix build", "Unassigned", .task, .medium, none, none⟩
        "" "cid-10").filter (fun p => p.path == "/fields/System.AssignedTo")
      = [⟨"add", "/fields/System.AssignedTo", .str "triage@example.com"⟩] :=
  (C10_triage_assignment ⟨"Engineering", "Task", "", "", "triage@example.com"⟩ ⟨0, 0⟩
      (fun _ => none) ⟨"Fix build", "Unassigned", .task, .medium, none, none⟩
      "" "cid-10" (Or.inl rfl)).1 (by decide)



/-! ### Whitespace and trimming lemmas -/

theorem dropWhile_length_le {α : Type} (p : α → Bool) :
    ∀ l : List α, (l.dropWhile p).length ≤ l.length := by
  intro l
  induction l with
  | nil => exact le_refl _
  | cons a t ih =>
    rw [List.dropWhile_cons]
    split
    · exact le_trans ih (Nat.le_succ _)
    · exact le_refl _

theorem nonWs_dropWhile (l : List Char) :
    nonWs (l.dropWhile isWsChar) = nonWs l := by
  induction l with
  | nil => rfl
  | cons c t ih =>
    rw [List.dropWhile_cons]
    split
    · rename_i hws
      rw [ih]
      simp [nonWs, List.filter_cons, hws]
    · rfl

theorem nonWs_reverse (l : List Char) : nonWs l.reverse = (nonWs l).reverse :=
  List.filter_reverse _ l

theorem nonWs_trimL (l : List Char) : nonWs (trimL l) = nonWs l := by
  rw [trimL, nonWs_reverse, nonWs_dropWhile, nonWs_reverse, List.reverse_reverse,
    nonWs_dropWhile]

theorem nonWs_eq_nil_of_trim {l : List Char} (h : trimL l = []) : nonWs l = [] := by
  rw [← nonWs_trimL, h]
  rfl

theorem nonWs_append (l₁ l₂ : List Char) :
    nonWs (l₁ ++ l₂) = nonWs l₁ ++ nonWs l₂ := by
  simp [nonWs]

theorem dropWhile_getLast? {α : Type} (p : α → Bool) :
    ∀ l : List α, l.dropWhile p ≠ [] → (l.dropWhile p).getLast? = l.getLast? := by
  intro l
  induction l with
  | nil => intro h; exact absurd rfl h
  | cons a t ih =>
    intro h
    rw [List.dropWhile_cons] at h ⊢
    split
    · rename_i hpa
      rw [if_pos hpa] at h
      have ht : t ≠ [] := by
        intro hz
        rw [hz] at h
        exact h rfl
      rw [ih h]
      obtain ⟨b, t', rfl⟩ : ∃ b t', t = b :: t' := by
        cases t with
        | nil => exact absurd rfl ht
        | cons b t' => exact ⟨b, t', rfl⟩
      rw [List.getLast?_cons_cons]
    · rfl

theorem trim_length_lt {l : List Char} (h : l.getLast? = some ' ') :
    (trimL l).length < l.length := by
  have hne : l ≠ [] := by
    intro hz
    rw [hz] at h
    simp at h
  have hlen1 : 1 ≤ l.length := by
    cases l with
    | nil => exact absurd rfl hne
    | cons a t => simp
  rw [trimL, List.length_reverse]
  cases hA : l.dropWhile isWsChar with
  | nil =>
    simpa using hlen1
  | cons a t =>
    rw [← hA]
    have hAne : l.dropWhile isWsChar ≠ [] := by rw [hA]; simp
    have hlast : (l.dropWhile isWsChar).getLast? = some ' ' := by
      rw [dropWhile_getLast? _ l hAne, h]
    obtain ⟨r, hr⟩ : ∃ r, (l.dropWhile isWsChar).reverse = ' ' :: r := by
      cases hrev : (l.dropWhile isWsChar).reverse with
      | nil =>
        rw [List.reverse_eq_nil_iff] at hrev
        exact absurd hrev hAne
      | cons x r =>
        have hx : (l.dropWhile isWsChar).getLast? = some x := by
          rw [← List.head?_reverse, hrev]
          rfl
        rw [hlast] at hx
        have hsp : ' ' = x := by injection hx
        refine ⟨r, ?_⟩
        rw [← hsp]
    rw [hr, List.dropWhile_cons, if_pos (by decide : isWsChar ' ' = true)]
    calc (r.dropWhile isWsChar).length
        ≤ r.length := dropWhile_length_le _ r
      _ < (' ' :: r).length := by simp
      _ = (l.dropWhile isWsChar).reverse.length := by rw [hr]
      _ = (l.dropWhile isWsChar).length := List.length_reverse _
      _ ≤ l.length := dropWhile_length_le _ l


/-! ### Chunker reconstruction lemmas -/

theorem join_cons_eq (x : List Char) (L : List (List Char)) :
    List.join (x :: L) = x ++ List.join L := rfl

theorem join_concat (L : List (List Char)) (x : List Char) :
    List.join (L ++ [x]) = List.join L ++ x := by
  induction L with
  | nil => simp [List.join]
  | cons a t ih => simp only [List.cons_append, join_cons_eq, ih, List.append_assoc]

theorem sentGo_nonWs : ∀ l : List Char,
    (∀ cur, nonWs (List.join (sentGo false cur l)) = nonWs cur.reverse ++ nonWs l) ∧
    nonWs (List.join (sentGo true [] l)) = nonWs l := by
  intro l
  induction l with
  | nil =>
    constructor
    · intro cur
      simp [sentGo, nonWs]
    · simp [sentGo, nonWs]
  | cons c rest ih =>
    obtain ⟨ihP, ihQ⟩ := ih
    have hQ : nonWs (List.join (sentGo true [] (c :: rest))) = nonWs (c :: rest) := by
      by_cases hws : isWsChar c = true
      · have hun : sentGo true ([] : List Char) (c :: rest) = sentGo true [] rest := by
          simp [sentGo, hws]
        rw [hun, ihQ]
        simp [nonWs, List.filter_cons, hws]
      · have hun : sentGo true ([] : List Char) (c :: rest) = sentGo false [c] rest := by
          simp [sentGo, hws]
        rw [hun, ihP [c]]
        simp [nonWs, List.filter_cons, hws]
    refine ⟨?_, hQ⟩
    intro cur
    by_cases hcut : (isWsChar c
        && (match cur with | p :: _ => isPunctEnd p | [] => false)) = true
    · have hws : isWsChar c = true := by
        obtain ⟨h1, -⟩ := Bool.and_eq_true_iff.1 hcut
        exact h1
      have hun : sentGo false cur (c :: rest) = cur.reverse :: sentGo true [] rest := by
        simp only [sentGo]
        rw [if_neg (by simp), if_pos hcut]
      rw [hun, join_cons_eq, nonWs_append, ihQ]
      simp [nonWs, List.filter_cons, hws]
    · have hun : sentGo false cur (c :: rest) = sentGo false (c :: cur) rest := by
        simp only [sentGo]
        rw [if_neg (by simp), if_neg (by simpa using hcut)]
      rw [hun, ihP (c :: cur)]
      rw [List.reverse_cons, nonWs_append]
      by_cases hws : isWsChar c = true <;>
        simp [nonWs, List.filter_cons, hws, List.append_assoc]

theorem sentSplit_nonWs (l : List Char) :
    nonWs (List.join (sentSplit l)) = nonWs l := by
  have h := (sentGo_nonWs l).1 []
  simpa [sentSplit, nonWs] using h

theorem splitOnSpace_ne_nil : ∀ s : List Char, splitOnSpace s ≠ [] := by
  intro s
  cases s with
  | nil => simp [splitOnSpace]
  | cons c rest =>
    rw [splitOnSpace]
    split
    · simp
    · split <;> simp

theorem splitOnSpace_join_nonWs : ∀ s : List Char,
    nonWs (List.join (splitOnSpace s)) = nonWs s := by
  intro s
  induction s with
  | nil => simp [splitOnSpace, nonWs]
  | cons c rest ih =>
    rw [splitOnSpace]
    by_cases hsp : c = ' '
    · rw [if_pos hsp]
      subst hsp
      simpa [nonWs, List.filter_cons] using ih
    · rw [if_neg hsp]
      cases hsr : splitOnSpace rest with
      | nil => exact absurd hsr (splitOnSpace_ne_nil rest)
      | cons w ws =>
        rw [hsr] at ih
        have hj : List.join ((c :: w) :: ws) = c :: List.join (w :: ws) := by simp
        rw [hj]
        rw [nonWs, nonWs, List.filter_cons, List.filter_cons]
        rw [show List.filter (fun x => !isWsChar x) (List.join (w :: ws))
            = List.filter (fun x => !isWsChar x) rest from ih]

theorem nonWs_space : nonWs [' '] = [] := rfl

theorem wordFold_nonWs (maxLength : Nat) :
    ∀ (words : List (List Char)) (st : List (List Char) × List Char),
      nonWs (List.join ((words.foldl (wordStep maxLength) st).1)
          ++ (words.foldl (wordStep maxLength) st).2)
        = nonWs (List.join st.1 ++ st.2) ++ nonWs (List.join words) := by
  intro words
  induction words with
  | nil => intro st; simp [nonWs]
  | cons w ws ih =>
    intro st
    rw [List.foldl_cons, ih]
    have hstep : nonWs (List.join (wordStep maxLength st w).1 ++ (wordStep maxLength st w).2)
        = nonWs (List.join st.1 ++ st.2) ++ nonWs w := by
      simp only [wordStep]
      split
      · simp only [join_concat, List.nil_append, nonWs_append, nonWs_trimL, nonWs_space,
          List.append_nil, List.append_assoc]
      · simp only [nonWs_append, nonWs_space, List.append_nil, List.append_assoc]
    rw [hstep]
    simp only [join_cons_eq, nonWs_append, List.append_assoc]

theorem sentFold_chunks_nonWs (st : List (List Char) × List Char) :
    nonWs (List.join (if st.2.length > 0 then st.1 ++ [trimL st.2] else st.1))
      = nonWs (List.join st.1 ++ st.2) := by
  split
  · rw [join_concat, nonWs_append, nonWs_append, nonWs_trimL]
  · rename_i hlen
    have hnil : st.2 = [] := by
      cases h2 : st.2 with
      | nil => rfl
      | cons a b => rw [h2] at hlen; simp at hlen
    rw [hnil, nonWs_append]
    simp [nonWs]

theorem sentFold_nonWs (maxLength : Nat) :
    ∀ (sentences : List (List Char)) (st : List (List Char) × List Char),
      nonWs (List.join ((sentences.foldl (sentenceStep maxLength) st).1)
          ++ (sentences.foldl (sentenceStep maxLength) st).2)
        = nonWs (List.join st.1 ++ st.2) ++ nonWs (List.join sentences) := by
  intro sentences
  induction sentences with
  | nil => intro st; simp [nonWs]
  | cons s ss ih =>
    intro st
    rw [List.foldl_cons, ih]
    have hstep : nonWs (List.join (sentenceStep maxLength st s).1
          ++ (sentenceStep maxLength st s).2)
        = nonWs (List.join st.1 ++ st.2) ++ nonWs s := by
      simp only [sentenceStep]
      by_cases hover : st.2.length + s.length > maxLength
      · rw [if_pos hover]
        by_cases hlong : s.length > maxLength
        · rw [if_pos hlong]
          set C := (if st.2.length > 0 then st.1 ++ [trimL st.2] else st.1) with hC
          set F := (splitOnSpace s).foldl (wordStep maxLength) (C, ([] : List Char)) with hF
          have hws := wordFold_nonWs maxLength (splitOnSpace s) (C, ([] : List Char))
          rw [← hF] at hws
          rw [List.append_nil] at hws
          rw [hC] at hws
          rw [sentFold_chunks_nonWs st, splitOnSpace_join_nonWs] at hws
          show nonWs (List.join F.1 ++ (if trimL F.2 ≠ [] then F.2 else []))
            = nonWs (List.join st.1 ++ st.2) ++ nonWs s
          by_cases htr : trimL F.2 ≠ []
          · rw [if_pos htr]
            exact hws
          · rw [if_neg htr]
            have hnil : nonWs F.2 = [] := nonWs_eq_nil_of_trim (not_not.1 htr)
            rw [List.append_nil]
            calc nonWs (List.join F.1)
                = nonWs (List.join F.1) ++ nonWs F.2 := by rw [hnil, List.append_nil]
              _ = nonWs (List.join F.1 ++ F.2) := (nonWs_append _ _).symm
              _ = nonWs (List.join st.1 ++ st.2) ++ nonWs s := hws
        · rw [if_neg hlong]
          show nonWs (List.join (if st.2.length > 0 then st.1 ++ [trimL st.2] else st.1)
              ++ (s ++ [' '])) = nonWs (List.join st.1 ++ st.2) ++ nonWs s
          rw [nonWs_append, sentFold_chunks_nonWs st, nonWs_append, nonWs_append,
            nonWs_space, List.append_nil]
      · rw [if_neg hover]
        show nonWs (List.join st.1 ++ (st.2 ++ s ++ [' ']))
          = nonWs (List.join st.1 ++ st.2) ++ nonWs s
        simp only [nonWs_append, nonWs_space, List.append_nil, List.append_assoc]
    rw [hstep]
    simp only [join_cons_eq, nonWs_append, List.append_assoc]



/-! ### Chunker length-bound lemmas -/

theorem trim_le_of_ends {maxLength : Nat} {l : List Char}
    (hend : l = [] ∨ l.getLast? = some ' ') (hlen : l.length ≤ maxLength + 1) :
    (trimL l).length ≤ maxLength := by
  rcases hend with rfl | hend
  · simp [trimL]
  · have := trim_length_lt hend
    omega

theorem concat_getLast? (l : List Char) : (l ++ [' ']).getLast? = some ' ' := by
  simp

theorem wordFold_inv (maxLength : Nat) :
    ∀ (words : List (List Char)) (st : List (List Char) × List Char),
      (∀ w ∈ words, w.length ≤ maxLength) → ChunkInv maxLength st →
      ChunkInv maxLength (words.foldl (wordStep maxLength) st) := by
  intro words
  induction words with
  | nil => intro st _ h; exact h
  | cons w ws ih =>
    intro st hw h
    rw [List.foldl_cons]
    refine ih _ (fun x hx => hw x (List.mem_cons_of_mem _ hx)) ?_
    obtain ⟨h1, h2, h3⟩ := h
    have hwlen : w.length ≤ maxLength := hw w (List.mem_cons_self w ws)
    simp only [wordStep]
    split
    · refine ⟨?_, Or.inr ?_, ?_⟩
      · intro c hc
        rcases List.mem_append.1 hc with hc | hc
        · exact h1 c hc
        · rcases List.mem_singleton.1 hc with rfl
          exact trim_le_of_ends h2 h3
      · rw [List.nil_append]
        exact concat_getLast? w
      · rw [List.nil_append, List.length_append]
        simp
        omega
    · rename_i hover
      refine ⟨h1, Or.inr (concat_getLast? _), ?_⟩
      rw [List.length_append, List.length_append]
      simp
      omega

theorem sentFold_inv (maxLength : Nat) :
    ∀ (sentences : List (List Char)) (st : List (List Char) × List Char),
      (∀ s ∈ sentences, ∀ w ∈ splitOnSpace s, w.length ≤ maxLength) →
      ChunkInv maxLength st →
      ChunkInv maxLength (sentences.foldl (sentenceStep maxLength) st) := by
  intro sentences
  induction sentences with
  | nil => intro st _ h; exact h
  | cons s ss ih =>
    intro st hw h
    rw [List.foldl_cons]
    refine ih _ (fun x hx => hw x (List.mem_cons_of_mem _ hx)) ?_
    obtain ⟨h1, h2, h3⟩ := h
    have hchunksinv : ∀ c ∈ (if st.2.length > 0 then st.1 ++ [trimL st.2] else st.1),
        c.length ≤ maxLength := by
      split
      · intro c hc
        rcases List.mem_append.1 hc with hc | hc
        · exact h1 c hc
        · rcases List.mem_singleton.1 hc with rfl
          exact trim_le_of_ends h2 h3
      · exact h1
    simp only [sentenceStep]
    by_cases hover : st.2.length + s.length > maxLength
    · rw [if_pos hover]
      by_cases hlong : s.length > maxLength
      · rw [if_pos hlong]
        set C := (if st.2.length > 0 then st.1 ++ [trimL st.2] else st.1) with hC
        set F := (splitOnSpace s).foldl (wordStep maxLength) (C, ([] : List Char)) with hF
        have hFinv : ChunkInv maxLength F := by
          rw [hF]
          exact wordFold_inv maxLength (splitOnSpace s) (C, ([] : List Char))
            (hw s (List.mem_cons_self s ss))
            ⟨hchunksinv, Or.inl rfl, by simp⟩
        obtain ⟨hF1, hF2, hF3⟩ := hFinv
        refine ⟨hF1, ?_, ?_⟩
        · by_cases htr : trimL F.2 ≠ []
          · rw [if_pos htr]
            exact hF2
          · rw [if_neg htr]
            exact Or.inl rfl
        · by_cases htr : trimL F.2 ≠ []
          · rw [if_pos htr]
            exact hF3
          · rw [if_neg htr]
            simp
      · rw [if_neg hlong]
        refine ⟨hchunksinv, Or.inr (concat_getLast? s), ?_⟩
        rw [List.length_append]
        simp
        omega
    · rw [if_neg hover]
      refine ⟨h1, Or.inr (concat_getLast? _), ?_⟩
      rw [List.length_append, List.length_append]
      simp
      omega

/-- Claim C2 counterexample: at threshold 5, the input `"aa\nbb\ncc"` has no
whitespace-free token longer than 5 — its whitespace-free tokens are `aa`,
`bb`, `cc` — yet the chunker returns the 8-character chunk `"aa\nbb\ncc"`
(the word loop splits on single spaces only, so the newline-joined run is one
"word" to it). -/
theorem C2_counterexample :
    ¬ (∀ c ∈ splitIntoChunks "aa\nbb\ncc".toList 5,
        c.length ≤ 5 ∨ ∃ t ∈ wsTokens "aa\nbb\ncc".toList, 5 < t.length) := by
  decide

/-- Claim C2 (amended): concatenating the returned chunks reproduces the
input text up to whitespace, and no chunk's length exceeds the threshold
unless one of the chunker's own words does — a word being a sentence segment
split on single spaces, which can contain non-space whitespace such as
newlines. -/
theorem C2_chunker (text : List Char) (maxLength : Nat) :
    nonWs (List.join (splitIntoChunks text maxLength)) = nonWs text ∧
    ∀ c ∈ splitIntoChunks text maxLength,
      c.length ≤ maxLength ∨ ∃ w ∈ wordsOf text, maxLength < w.length := by
  constructor
  · simp only [splitIntoChunks]
    set st := (sentSplit text).foldl (sentenceStep maxLength) ([], ([] : List Char)) with hst
    have hfold := sentFold_nonWs maxLength (sentSplit text) ([], ([] : List Char))
    rw [← hst] at hfold
    have hfold' : nonWs (List.join st.1 ++ st.2) = nonWs text := by
      rw [hfold, sentSplit_nonWs]
      simp [nonWs]
    by_cases htr : trimL st.2 ≠ []
    · rw [if_pos htr, join_concat, nonWs_append, nonWs_trimL, ← nonWs_append]
      exact hfold'
    · rw [if_neg htr]
      have hnil : nonWs st.2 = [] := nonWs_eq_nil_of_trim (not_not.1 htr)
      rw [← hfold', nonWs_append, hnil, List.append_nil]
  · intro c hc
    by_cases hbig : ∃ w ∈ wordsOf text, maxLength < w.length
    · exact Or.inr hbig
    · left
      push_neg at hbig
      have hsent : ∀ s ∈ sentSplit text, ∀ w ∈ splitOnSpace s, w.length ≤ maxLength := by
        intro s hs w hwmem
        refine hbig w ?_
        rw [wordsOf]
        exact List.mem_join.2 ⟨splitOnSpace s, List.mem_map_of_mem _ hs, hwmem⟩
      have hinv := sentFold_inv maxLength (sentSplit text) ([], ([] : List Char)) hsent
        ⟨by simp, Or.inl rfl, by simp⟩
      obtain ⟨h1, h2, h3⟩ := hinv
      simp only [splitIntoChunks] at hc
      split at hc
      · rcases List.mem_append.1 hc with hc | hc
        · exact h1 c hc
        · rcases List.mem_singleton.1 hc with rfl
          exact trim_le_of_ends h2 h3
      · exact h1 c hc

/-- Instance of the amended C2 at a concrete input: `"ab. cd"` at threshold 4
splits into `["ab.", "cd"]`, chunks within the threshold. -/
theorem C2_chunker_witness :
    "ab.".toList.length ≤ 4 ∨ ∃ w ∈ wordsOf "ab. cd".toList, 4 < w.length :=
  (C2_chunker "ab. cd".toList 4).2 "ab.".toList (by decide)



end ActionAgent

namespace ActionAgent

/-! ### Caption normalizer lemmas -/

theorem mem_dropWhile_subset {α : Type} (p : α → Bool) :
    ∀ (l : List α) (c : α), c ∈ l.dropWhile p → c ∈ l := by
  intro l
  induction l with
  | nil => intro c hc; simpa using hc
  | cons a t ih =>
    intro c hc
    rw [List.dropWhile_cons] at hc
    split at hc
    · exact List.mem_cons_of_mem _ (ih c hc)
    · exact hc

theorem mem_trimL_subset {l : List Char} {c : Char} (hc : c ∈ trimL l) : c ∈ l := by
  rw [trimL] at hc
  rw [List.mem_reverse] at hc
  have h1 := mem_dropWhile_subset _ _ _ hc
  rw [List.mem_reverse] at h1
  exact mem_dropWhile_subset _ _ _ h1

theorem replaceRunsGo_ws_space :
    ∀ (l : List Char) (inRun : Bool) (c : Char),
      c ∈ replaceRunsGo isWsChar inRun l → isWsChar c = true → c = ' ' := by
  intro l
  induction l with
  | nil => intro inRun c hc; simp [replaceRunsGo] at hc
  | cons a t ih =>
    intro inRun c hc hws
    rw [replaceRunsGo] at hc
    split at hc
    · split at hc
      · exact ih true c hc hws
      · rcases List.mem_cons.1 hc with rfl | hc
        · rfl
        · exact ih true c hc hws
    · rcases List.mem_cons.1 hc with rfl | hc
      · rename_i hpa
        rw [hws] at hpa
        exact absurd rfl hpa
      · exact ih false c hc hws

theorem parseVtt_no_newline (s : List Char) : '\n' ∉ parseVttToText s := by
  intro hmem
  rw [parseVttToText] at hmem
  split at hmem
  · simp at hmem
  · have h1 := mem_trimL_subset hmem
    have := replaceRunsGo_ws_space _ false '\n' h1 (by decide)
    simp at this

theorem splitLines_single {t : List Char} (h : '\n' ∉ t) : splitLines t = [t] := by
  induction t with
  | nil => rfl
  | cons c rest ih =>
    rw [splitLines]
    have hc : ¬ c = '\n' := fun hz => h (hz ▸ List.mem_cons_self c rest)
    rw [if_neg hc]
    rw [ih (fun hz => h (List.mem_cons_of_mem _ hz))]

theorem dropWhile_head_false {α : Type} (p : α → Bool) :
    ∀ (l : List α) (c : α) (r : List α), l.dropWhile p = c :: r → p c = false := by
  intro l
  induction l with
  | nil => intro c r h; simp [List.dropWhile] at h
  | cons a t ih =>
    intro c r h
    rw [List.dropWhile_cons] at h
    split at h
    · exact ih c r h
    · rename_i hpa
      injection h with h1 h2
      subst h1
      simpa using hpa

theorem trimL_idem (l : List Char) : trimL (trimL l) = trimL l := by
  cases hA : l.dropWhile isWsChar with
  | nil =>
    have hz : trimL l = [] := by rw [trimL, hA]; rfl
    rw [hz]
    rfl
  | cons a t =>
    have hpa : isWsChar a = false := dropWhile_head_false _ l a t hA
    cases hB : (l.dropWhile isWsChar).reverse.dropWhile isWsChar with
    | nil =>
      have hz : trimL l = [] := by rw [trimL, hB]; rfl
      rw [hz]
      rfl
    | cons b u =>
      have htl : trimL l = (b :: u).reverse := by rw [trimL, hB]
      have hpb : isWsChar b = false := dropWhile_head_false _ _ b u hB
      have hBne : (l.dropWhile isWsChar).reverse.dropWhile isWsChar ≠ [] := by
        rw [hB]; simp
      have hlastB : (b :: u).getLast? = some a := by
        rw [← hB, dropWhile_getLast? _ _ hBne, List.getLast?_reverse, hA]
        rfl
      rw [htl, trimL]
      have h1 : ((b :: u).reverse).dropWhile isWsChar = (b :: u).reverse := by
        cases hrv : (b :: u).reverse with
        | nil => simp at hrv
        | cons x r =>
          have hx : some x = some a := by
            rw [show some x = ((b :: u).reverse).head? from by rw [hrv]; rfl,
              List.head?_reverse, hlastB]
          have hxa : x = a := by injection hx
          rw [List.dropWhile_cons, if_neg (by rw [hxa, hpa]; simp)]
      rw [h1, List.reverse_reverse, List.dropWhile_cons, if_neg (by rw [hpb]; simp)]

theorem chain'_dropWhile {r : Char → Char → Prop} (p : Char → Bool) :
    ∀ l : List Char, List.Chain' r l → List.Chain' r (l.dropWhile p) := by
  intro l
  induction l with
  | nil => intro h; simpa using h
  | cons a t ih =>
    intro h
    rw [List.dropWhile_cons]
    split
    · exact ih h.tail
    · exact h

theorem wsIsolated_tail {c : Char} {l : List Char} (h : WsIsolated (c :: l)) :
    WsIsolated l :=
  ⟨fun x hx => h.1 x (List.mem_cons_of_mem _ hx), h.2.tail⟩

theorem wsIsolated_dropWhile (p : Char → Bool) {l : List Char} (h : WsIsolated l) :
    WsIsolated (l.dropWhile p) :=
  ⟨fun x hx => h.1 x (mem_dropWhile_subset _ _ _ hx), chain'_dropWhile p l h.2⟩

theorem wsIsolated_reverse {l : List Char} (h : WsIsolated l) : WsIsolated l.reverse := by
  refine ⟨fun x hx => h.1 x (List.mem_reverse.1 hx), ?_⟩
  rw [List.chain'_reverse]
  exact h.2.imp (fun a b hab => by
    intro hba
    exact hab ⟨hba.2, hba.1⟩)

theorem wsIsolated_trimL {l : List Char} (h : WsIsolated l) : WsIsolated (trimL l) :=
  wsIsolated_reverse (wsIsolated_dropWhile _ (wsIsolated_reverse (wsIsolated_dropWhile _ h)))

theorem replaceRunsGo_true_head :
    ∀ (l : List Char) (c : Char) (r : List Char),
      replaceRunsGo isWsChar true l = c :: r → isWsChar c = false := by
  intro l
  induction l with
  | nil => intro c r h; simp [replaceRunsGo] at h
  | cons a t ih =>
    intro c r h
    rw [replaceRunsGo] at h
    split at h
    · rw [if_pos rfl] at h
      exact ih c r h
    · rename_i hpa
      injection h with h1 h2
      subst h1
      simpa using hpa

theorem wsIsolated_replaceRunsGo :
    ∀ l : List Char, WsIsolated (replaceRunsGo isWsChar false l)
      ∧ WsIsolated (replaceRunsGo isWsChar true l) := by
  intro l
  induction l with
  | nil =>
    have h0 : replaceRunsGo isWsChar false [] = [] := rfl
    have h1 : replaceRunsGo isWsChar true [] = [] := rfl
    exact ⟨⟨fun c hc => by rw [h0] at hc; simp at hc, by rw [h0]; exact List.chain'_nil⟩,
      ⟨fun c hc => by rw [h1] at hc; simp at hc, by rw [h1]; exact List.chain'_nil⟩⟩
  | cons a t ih =>
    obtain ⟨ihF, ihT⟩ := ih
    constructor
    · rw [replaceRunsGo]
      split
      · rw [if_neg (by simp)]
        refine ⟨?_, ?_⟩
        · intro x hx hws
          rcases List.mem_cons.1 hx with rfl | hx
          · rfl
          · exact ihT.1 x hx hws
        · rw [List.chain'_cons']
          refine ⟨?_, ihT.2⟩
          intro y hy
          intro hcon
          cases hh : replaceRunsGo isWsChar true t with
          | nil => rw [hh] at hy; simp at hy
          | cons z zs =>
            rw [hh] at hy
            have hz : z = y := by
              simp only [List.head?] at hy
              injection hy
            have hzf : isWsChar z = false := replaceRunsGo_true_head t z zs hh
            rw [hz] at hzf
            exact absurd hcon.2 (by simp [hzf])
      · refine ⟨?_, ?_⟩
        · intro x hx hws
          rcases List.mem_cons.1 hx with rfl | hx
          · rename_i hpa
            rw [hws] at hpa
            exact absurd rfl hpa
          · exact ihF.1 x hx hws
        · rw [List.chain'_cons']
          refine ⟨?_, ihF.2⟩
          intro y hy hcon
          rename_i hpa
          exact hpa hcon.1
    · rw [replaceRunsGo]
      split
      · rw [if_pos rfl]
        exact ihT
      · refine ⟨?_, ?_⟩
        · intro x hx hws
          rcases List.mem_cons.1 hx with rfl | hx
          · rename_i hpa
            rw [hws] at hpa
            exact absurd rfl hpa
          · exact ihF.1 x hx hws
        · rw [List.chain'_cons']
          refine ⟨?_, ihF.2⟩
          intro y hy hcon
          rename_i hpa
          exact hpa hcon.1

theorem replaceRunsGo_true_eq_false {l : List Char}
    (h : ∀ c r, l = c :: r → isWsChar c = false) :
    replaceRunsGo isWsChar true l = replaceRunsGo isWsChar false l := by
  cases l with
  | nil => rfl
  | cons c r =>
    have hc : isWsChar c = false := h c r rfl
    rw [replaceRunsGo, replaceRunsGo, if_neg (by rw [hc]; simp),
      if_neg (by rw [hc]; simp)]

theorem collapse_fixed : ∀ {l : List Char}, WsIsolated l → replaceRuns isWsChar l = l := by
  intro l
  induction l with
  | nil => intro _; rfl
  | cons c rest ih =>
    intro h
    rw [replaceRuns, replaceRunsGo]
    by_cases hws : isWsChar c = true
    · rw [if_pos hws, if_neg (by simp)]
      have hc : c = ' ' := h.1 c (List.mem_cons_self c rest) hws
      have hhead : ∀ d r, rest = d :: r → isWsChar d = false := by
        intro d r hrest
        have := (List.chain'_cons'.1 h.2).1 d (by rw [hrest]; rfl)
        by_contra hcon
        exact this ⟨hws, by simpa using hcon⟩
      rw [replaceRunsGo_true_eq_false hhead]
      rw [show replaceRunsGo isWsChar false rest = replaceRuns isWsChar rest from rfl]
      rw [ih (wsIsolated_tail h), hc]
    · rw [if_neg hws]
      rw [show replaceRunsGo isWsChar false rest = replaceRuns isWsChar rest from rfl]
      rw [ih (wsIsolated_tail h)]


theorem intercalate_single (x : List Char) : List.intercalate [' '] [x] = x := by
  simp [List.intercalate]

/-- Claim C8 counterexample: normalizing `"<v NOTE>hi"` produces
`"NOTE: hi"`, which the line filter of a second normalization pass discards
as a NOTE comment — so the normalizer is not idempotent. -/
theorem C8_counterexample :
    parseVttToText "<v NOTE>hi".toList = "NOTE: hi".toList ∧
    parseVttToText (parseVttToText "<v NOTE>hi".toList)
      ≠ parseVttToText "<v NOTE>hi".toList := by
  decide

/-- Claim C8 (amended): the caption normalizer is idempotent on every input
whose normalized output is not itself caught by the line filters or the
speaker pattern — i.e. unless the output is the literal `WEBVTT`, starts
with `NOTE`, contains the timing arrow `" --> "`, consists solely of digits,
or matches the speaker tag regex, renormalizing is a no-op. -/
theorem C8_normalizer (s : List Char) :
    (parseVttToText s = [] ∨
      ((parseVttToText s == "WEBVTT".toList) = false ∧
       "NOTE".toList.isPrefixOf (parseVttToText s) = false ∧
       containsSub (parseVttToText s) " --> ".toList = false ∧
       (parseVttToText s).all Char.isDigit = false ∧
       vMatch (parseVttToText s) = none)) →
    parseVttToText (parseVttToText s) = parseVttToText s := by
  intro h
  rcases h with hnil | ⟨hweb, hnote, harrow, hdig, hvm⟩
  · rw [hnil]
    rfl
  · set t := parseVttToText s with ht
    by_cases htnil : t = []
    · rw [htnil]
      rfl
    · have htrim : trimL t = t := by
        rw [ht, parseVttToText]
        split
        · rfl
        · exact trimL_idem _
      have hnonl : '\n' ∉ t := by
        rw [ht]
        exact parseVtt_no_newline s
      have hcollapse : replaceRuns isWsChar t = t := by
        apply collapse_fixed
        rw [ht, parseVttToText]
        split
        · exact ⟨by simp, List.chain'_nil⟩
        · exact wsIsolated_trimL (wsIsolated_replaceRunsGo _).1
      have hempty : t.isEmpty = false := by
        cases h2 : t with
        | nil => exact absurd h2 htnil
        | cons a b => rfl
      have hgo : vttGo [] [] [t] = [t] := by
        rw [vttGo]
        simp only [htrim]
        rw [if_neg (by rw [hempty, hweb, hnote]; simp)]
        rw [if_neg (by rw [harrow]; simp)]
        rw [if_neg (by rw [hdig]; simp)]
        rw [hvm]
        rw [if_pos (Nat.pos_of_ne_zero (fun hz => htnil (List.length_eq_zero.1 hz)))]
        rfl
      conv_lhs => rw [parseVttToText]
      rw [if_neg (by rw [hempty]; simp)]
      rw [splitLines_single hnonl, hgo, intercalate_single, hcollapse, htrim]

/-- Instance of the amended C8: a normalized speaker line renormalizes to
itself. -/
theorem C8_normalizer_witness :
    parseVttToText (parseVttToText "<v Sam>hello</v>".toList)
      = parseVttToText "<v Sam>hello</v>".toList :=
  C8_normalizer "<v Sam>hello</v>".toList (Or.inr (by decide))


end ActionAgent
